import Mathlib

/-!
# Verification of the FIX Trade Log Analyzer core

A shallow embedding of `src/901b39-FIX_Trade_Log_Analyzer/repository_after/src/lib.rs`.
Byte strings are `List Nat` (each element a byte value); Rust `u64`/`u32`
arithmetic is `Nat` with explicit `% 2^64` where the source wraps
(`wrapping_mul`, atomic `fetch_add`) and explicit bound checks where the
source uses `checked_mul`/`checked_add`.  Mutation through `&self` (atomics)
is modelled by explicit state passing with sequential semantics: every
compare-and-swap succeeds, and the bounded spin `wait_meta` returns the
current stored value.
-/

namespace FixAnalyzer

/-! ## Definitions: the embedded program -/

/-- Model of `pub const FIELD_DELIM: u8 = b'|';` -/
def FIELD_DELIM : Nat := 124

/-- Model of `pub const ESCAPE: u8 = b'\\';` -/
def ESCAPE : Nat := 92

/-- Two to the 64th, the modulus of Rust `u64` arithmetic. -/
def U64 : Nat := 2 ^ 64

/-- Model of `decoded_len` (lib.rs): length of the decoded form of a raw byte string.
An escape byte followed by another byte contributes one decoded byte for the
pair; a trailing lone escape contributes itself. -/
def decoded_len : List Nat → Nat
  | [] => 0
  | a :: rest =>
    if a = ESCAPE then
      match rest with
      | _ :: rest' => 1 + decoded_len rest'
      | [] => 1
    else 1 + decoded_len rest

/-- Model of `decode_into` (lib.rs): the sequence of bytes the source writes into the
caller-supplied `out` buffer, returned here as a list.  `\x` decodes to `x`;
a trailing lone escape byte is emitted literally. -/
def decode : List Nat → List Nat
  | [] => []
  | a :: rest =>
    if a = ESCAPE then
      match rest with
      | b :: rest' => b :: decode rest'
      | [] => [a]
    else a :: decode rest

/-- The scan of `find_unescaped` (lib.rs) over the suffix of the buffer
from position `i`, carrying the absolute position: an escape byte skips
the following byte (`i += 2`); a trailing lone escape is stepped over
(`i += 1`, ending the scan); otherwise a needle byte is reported at its
absolute index. -/
def findUnescapedAux (needle : Nat) : List Nat → Nat → Option Nat
  | [], _ => none
  | b :: rest, i =>
    if b = ESCAPE then
      match rest with
      | _ :: rest' => findUnescapedAux needle rest' (i + 2)
      | [] => none
    else if b = needle then some i
    else findUnescapedAux needle rest (i + 1)

/-- Model of `find_unescaped` (lib.rs): index of the first occurrence of `needle` at
or after position `i` that is not consumed by a preceding escape byte.
The source's index loop over `buf[i..]` is the suffix scan above. -/
def find_unescaped (buf : List Nat) (i : Nat) (needle : Nat) : Option Nat :=
  findUnescapedAux needle (buf.drop i) i

/-- FNV-1a step on 64-bit state: xor the byte in, multiply by the prime,
wrapping (`wrapping_mul`). -/
def fnvStep (h b : Nat) : Nat := ((h ^^^ b) * 0x100000001b3) % U64

/-- The loop of `hash64_and_len` (lib.rs): folds FNV-1a over the decoded
bytes while counting them, decoding escapes on the fly.  A trailing lone
escape byte is hashed literally, as in the source's `else` arm. -/
def hash64Loop : List Nat → Nat → Nat → Nat × Nat
  | [], h, n => (h, n)
  | a :: rest, h, n =>
    if a = ESCAPE then
      match rest with
      | b :: rest' => hash64Loop rest' (fnvStep h b) (n + 1)
      | [] => (fnvStep h a, n + 1)
    else hash64Loop rest (fnvStep h a) (n + 1)

/-- Model of `hash64_and_len` (lib.rs): FNV-1a 64-bit hash over the decoded bytes plus
the decoded length; a result of exactly 0 is remapped to 1 because 0 is the
empty-slot sentinel. -/
def hash64_and_len (raw : List Nat) : Nat × Nat :=
  let p := hash64Loop raw 0xcbf29ce484222325 0
  if p.1 = 0 then (1, p.2) else p

/-- Model of `escaped_eq` (lib.rs): compare a raw (possibly escaped) byte string
against already-decoded stored bytes without materializing the decoding.
The source computes the next logical byte `b` of `raw` (consuming an escape
pair, or a trailing lone escape literally) and checks it against
`stored[j]`; at the end it requires `j == stored.len()`. -/
def escaped_eq : List Nat → List Nat → Bool
  | [], stored => stored.isEmpty
  | a :: rest, stored =>
    if a = ESCAPE then
      match rest with
      | c :: r =>
        match stored with
        | [] => false
        | s :: srest => if s = c then escaped_eq r srest else false
      | [] =>
        match stored with
        | [] => false
        | s :: srest => if s = a then escaped_eq ([] : List Nat) srest else false
    else
      match stored with
      | [] => false
      | s :: srest => if s = a then escaped_eq rest srest else false

/-- Folding FNV over plain (already decoded) bytes. -/
def fnvFold : List Nat → Nat → Nat
  | [], h => h
  | b :: rest, h => fnvFold rest (fnvStep h b)

/-- Model of `ParseErrorKind` (lib.rs). -/
inductive ParseErrorKind where
  | MissingTag
  | InvalidTag
  | InvalidField
  | InvalidNumber
  | InvalidTimestamp
  | ArenaFull
  | TableFull
deriving DecidableEq, Repr

/-- Model of `ParseError` (lib.rs): a kind plus a byte offset. -/
structure ParseError where
  kind : ParseErrorKind
  at_byte : Nat
deriving DecidableEq, Repr

/-- Rust `u64::checked_mul`. -/
def checkedMul (a b : Nat) : Option Nat :=
  if a * b < U64 then some (a * b) else none

/-- Rust `u64::checked_add`. -/
def checkedAdd (a b : Nat) : Option Nat :=
  if a + b < U64 then some (a + b) else none

/-- The digit loop of `parse_u64` (lib.rs): consume ASCII digits, refusing
any non-digit, with checked (overflow-refusing) accumulation via
`checked_mul(10).and_then(checked_add(digit))`. -/
def parseU64Loop : List Nat → Nat → Option Nat
  | [], v => some v
  | d :: rest, v =>
    if 48 ≤ d ∧ d ≤ 57 then
      (checkedMul v 10).bind fun x =>
        (checkedAdd x (d - 48)).bind fun v' => parseU64Loop rest v'
    else none

/-- Model of `parse_u64` (lib.rs): rejects the empty string and any string holding an
escape byte, then runs the checked digit loop from 0. -/
def parse_u64 (s : List Nat) : Option Nat :=
  if s.isEmpty then none
  else if s.contains ESCAPE then none
  else parseU64Loop s 0

/-- The mathematical value of a digit string under left-to-right base-10
accumulation starting from `v`. -/
def accumVal (v : Nat) (s : List Nat) : Nat :=
  s.foldl (fun x d => x * 10 + (d - 48)) v

/-- The mathematical value of a digit string. -/
def digitsVal (s : List Nat) : Nat := accumVal 0 s

/-- Model of `FixTimestamp` (lib.rs): base-10 packed `YYYYMMDDHHMMSS` seconds plus a
separate microsecond field. -/
structure FixTimestamp where
  seconds : Nat
  micros : Nat
deriving DecidableEq, Repr

/-- Model of `parse_timestamp` (lib.rs): fixed-width `YYYYMMDD-HH:MM:SS.ssssss`.
Checks, in source order: minimum length 24, the four separator bytes,
absence of the escape byte anywhere in the slice, then parses the five
digit groups with `parse_u64`, truncates microseconds to `u32`
(`as u32`), rejects microseconds above 999999, and packs seconds in `u64`
arithmetic. -/
def parse_timestamp (s : List Nat) : Option FixTimestamp :=
  if s.length < 24 then none
  else if ¬(s.getD 8 0 = 45 ∧ s.getD 11 0 = 58 ∧ s.getD 14 0 = 58 ∧
            s.getD 17 0 = 46) then none
  else if s.contains ESCAPE then none
  else
    match parse_u64 (s.take 8), parse_u64 ((s.drop 9).take 2),
        parse_u64 ((s.drop 12).take 2), parse_u64 ((s.drop 15).take 2),
        parse_u64 ((s.drop 18).take 6) with
    | some ymd, some hh, some mm, some ss, some micros64 =>
      let micros := micros64 % 2 ^ 32
      if micros > 999999 then none
      else some ⟨(ymd * 1000000 + hh * 10000 + mm * 100 + ss) % U64, micros⟩
    | _, _, _, _, _ => none

/-- Model of `parse_fix_timestamp` (lib.rs): the public wrapper, collapsing the unit
error into `InvalidTimestamp` at byte 0. -/
def parse_fix_timestamp (s : List Nat) : Except ParseError FixTimestamp :=
  match parse_timestamp s with
  | some t => Except.ok t
  | none => Except.error ⟨ParseErrorKind.InvalidTimestamp, 0⟩

/-- Well-formedness of a timestamp slice as `parse_timestamp` accepts it:
at least 24 bytes, the four separators in place, no escape byte anywhere,
and the five digit groups all ASCII digits. -/
def tsWellFormed (s : List Nat) : Prop :=
  24 ≤ s.length ∧
  s.getD 8 0 = 45 ∧ s.getD 11 0 = 58 ∧ s.getD 14 0 = 58 ∧ s.getD 17 0 = 46 ∧
  ¬ s.contains ESCAPE = true ∧
  (∀ b ∈ s.take 8, 48 ≤ b ∧ b ≤ 57) ∧
  (∀ b ∈ (s.drop 9).take 2, 48 ≤ b ∧ b ≤ 57) ∧
  (∀ b ∈ (s.drop 12).take 2, 48 ≤ b ∧ b ≤ 57) ∧
  (∀ b ∈ (s.drop 15).take 2, 48 ≤ b ∧ b ≤ 57) ∧
  (∀ b ∈ (s.drop 18).take 6, 48 ≤ b ∧ b ≤ 57)

instance (s : List Nat) : Decidable (tsWellFormed s) := by
  unfold tsWellFormed; infer_instance

/-- The scan of `split_tag_value` (lib.rs): index of the first `'='` byte
(61) of a field, if any. -/
def firstEqIdx : List Nat → Option Nat
  | [] => none
  | b :: rest => if b = 61 then some 0 else (firstEqIdx rest).map (· + 1)

/-- Model of `split_tag_value` (lib.rs): split a field at the first `'='`; the value
keeps any further `'='` bytes; an empty tag is rejected. -/
def split_tag_value (field : List Nat) : Option (List Nat × List Nat) :=
  match firstEqIdx field with
  | none => none
  | some i =>
    let tag := field.take i
    let value := field.drop (i + 1)
    if tag = [] then none else some (tag, value)

/-- Model of `Parsed` (lib.rs): the five required fields plus the optional tag-58
text.  Order id, symbol and text are kept raw (still escaped), as
`EscapedValue` views in the source. -/
structure Parsed where
  order_id : List Nat
  symbol : List Nat
  side : Nat
  quantity : Nat
  timestamp : FixTimestamp
  text58 : Option (List Nat)
deriving DecidableEq, Repr

/-- The six mutable `Option` locals of `parse_required` (lib.rs). -/
structure PartialParsed where
  order_id : Option (List Nat) := none
  symbol : Option (List Nat) := none
  side : Option Nat := none
  quantity : Option Nat := none
  timestamp : Option FixTimestamp := none
  text58 : Option (List Nat) := none
deriving DecidableEq, Repr

/-- The tag dispatch of the field loop in `parse_required` (lib.rs):
`11` order id, `55` symbol, `54` first value byte as side, `38` quantity
via `parse_u64` (`InvalidNumber` at the field start), `52` timestamp via
`parse_timestamp` (`InvalidTimestamp` at the field start), `58` text;
unrecognized tags are ignored. -/
def dispatch (st : PartialParsed) (tag value : List Nat) (i : Nat) :
    Except ParseError PartialParsed :=
  if tag = [49, 49] then Except.ok { st with order_id := some value }
  else if tag = [53, 53] then Except.ok { st with symbol := some value }
  else if tag = [53, 52] then Except.ok { st with side := value.head? }
  else if tag = [51, 56] then
    match parse_u64 value with
    | none => Except.error ⟨ParseErrorKind.InvalidNumber, i⟩
    | some q => Except.ok { st with quantity := some q }
  else if tag = [53, 50] then
    match parse_timestamp value with
    | none => Except.error ⟨ParseErrorKind.InvalidTimestamp, i⟩
    | some t => Except.ok { st with timestamp := some t }
  else if tag = [53, 56] then Except.ok { st with text58 := some value }
  else Except.ok st

/-- One iteration of the field loop of `parse_required` (lib.rs) at byte
position `i < raw.length`: carve the field
`raw[i .. find_unescaped(raw, i, '|') or raw.len]`, skip it if the loop's
emptiness test (`field_start == i' - 1`) fires, split it into tag/value
(`InvalidField` at the field start on failure) and dispatch; returns the
updated state and the next loop position. -/
def parseField (raw : List Nat) (i : Nat) (st : PartialParsed) :
    Except ParseError (PartialParsed × Nat) :=
  match find_unescaped raw i FIELD_DELIM with
  | some j =>
    if i = j then Except.ok (st, j + 1)
    else
      match split_tag_value ((raw.take j).drop i) with
      | none => Except.error ⟨ParseErrorKind.InvalidField, i⟩
      | some (tag, value) =>
        (dispatch st tag value i).map (fun st' => (st', j + 1))
  | none =>
    if i = raw.length - 1 then Except.ok (st, raw.length)
    else
      match split_tag_value ((raw.take raw.length).drop i) with
      | none => Except.error ⟨ParseErrorKind.InvalidField, i⟩
      | some (tag, value) =>
        (dispatch st tag value i).map (fun st' => (st', raw.length))

/-- The field loop of `parse_required` (lib.rs): iterate `parseField` while
`i < raw.length`.  The fuel only bounds the iteration count in this
embedding; each iteration advances `i` by at least one, so
`raw.length + 1` units never run out (`parseLoop_fuel`). -/
def parseLoop (raw : List Nat) : Nat → Nat → PartialParsed →
    Except ParseError PartialParsed
  | 0, _, st => Except.ok st
  | fuel + 1, i, st =>
    if i < raw.length then
      match parseField raw i st with
      | Except.error e => Except.error e
      | Except.ok (st', i') => parseLoop raw fuel i' st'
    else Except.ok st

/-- Model of `parse_required` (lib.rs): run the field loop over the whole message,
then demand the five required tags, failing with `MissingTag` at byte 0. -/
def parse_required (raw : List Nat) : Except ParseError Parsed :=
  match parseLoop raw (raw.length + 1) 0 {} with
  | Except.error e => Except.error e
  | Except.ok st =>
    match st.order_id, st.symbol, st.side, st.quantity, st.timestamp with
    | some o, some sy, some sd, some q, some ts =>
      Except.ok ⟨o, sy, sd, q, ts, st.text58⟩
    | _, _, _, _, _ => Except.error ⟨ParseErrorKind.MissingTag, 0⟩

/-- Model of `Arena` (lib.rs): a fixed byte buffer plus a monotone cursor (`next`,
an atomic in the source; sequential state here). -/
structure Arena where
  buf : List Nat
  next : Nat
deriving DecidableEq, Repr

/-- Model of `Arena::new` (lib.rs): a zeroed buffer of `cap` bytes, cursor 0. -/
def Arena.new (cap : Nat) : Arena := ⟨List.replicate cap 0, 0⟩

/-- Model of `Arena::alloc` (lib.rs): reject zero-length requests; reserve
`[next, next+len)` by advancing the cursor if the range fits, else fail.
The source's compare-and-swap retry loop succeeds first try sequentially;
`checked_add` on the cursor cannot overflow in the `Nat` model. -/
def Arena.alloc (a : Arena) (len : Nat) : Option (Nat × Arena) :=
  if len = 0 then none
  else if a.next + len > a.buf.length then none
  else some (a.next, { a with next := a.next + len })

/-- Model of `Arena::get` (lib.rs): the bytes at `[off, off+len)` iff in bounds. -/
def Arena.get (a : Arena) (off len : Nat) : Option (List Nat) :=
  if off + len > a.buf.length then none
  else some ((a.buf.drop off).take len)

/-- Overwrite `buf[off .. off+data.length)` with `data`: the effect of the
source writing through `Arena::get_mut`. -/
def writeBytes (buf : List Nat) (off : Nat) (data : List Nat) : List Nat :=
  buf.take off ++ data ++ buf.drop (off + data.length)

/-- Model of `SymbolSlot` (lib.rs): `key_hash` (0 = empty), `meta` (packed
offset+length, 0 = claimed but unpublished), `count`, `volume`. -/
structure SymbolSlot where
  key_hash : Nat
  meta : Nat
  count : Nat
  volume : Nat
deriving DecidableEq, Repr

/-- A freshly initialized slot (`SymbolSlot::new`). -/
def SymbolSlot.empty : SymbolSlot := ⟨0, 0, 0, 0⟩

/-- Model of `pack_meta` (lib.rs): `((off as u64) << 32) | (len & 0xFFFF_FFFF)`.
The shifted offset has zero low 32 bits and the masked length is below
`2^32`, so the bitwise or coincides with addition. -/
def pack_meta (off len : Nat) : Nat := (off * 2 ^ 32) % U64 + len % 2 ^ 32

/-- Model of `unpack_meta` (lib.rs): `meta >> 32` and `meta & 0xFFFF_FFFF`. -/
def unpack_meta (meta : Nat) : Nat × Nat := (meta / 2 ^ 32, meta % 2 ^ 32)

/-- Model of `SymbolTable` (lib.rs): power-of-two slot array (as a list), its mask,
and the backing arena. -/
structure SymbolTable where
  mask : Nat
  slots : List SymbolSlot
  arena : Arena
deriving DecidableEq, Repr

/-- The doubling loop of Rust `usize::next_power_of_two`: double `power`
until it reaches `n`.  `n` units of fuel always suffice since the power
doubles each step (`nextPowerOfTwo_spec`). -/
def nextPow2Loop (n : Nat) : Nat → Nat → Nat
  | 0, power => power
  | fuel + 1, power => if n ≤ power then power else nextPow2Loop n fuel (power * 2)

/-- Rust `usize::next_power_of_two`: the smallest power of two that is at
least `n` (1 for `n = 0`). -/
def nextPowerOfTwo (n : Nat) : Nat := nextPow2Loop n n 1

/-- Model of `SymbolTable::new` (lib.rs): capacity is `max_symbols` rounded up to
the next power of two, with a minimum of 8. -/
def SymbolTable.new (max_symbols arena_bytes : Nat) : SymbolTable :=
  let cap := max (nextPowerOfTwo max_symbols) 8
  { mask := cap - 1
    slots := List.replicate cap SymbolSlot.empty
    arena := Arena.new arena_bytes }

/-- The probe loop of `SymbolTable::record` (lib.rs), sequentially: at each
slot, a matching non-zero `key_hash` is checked byte-wise against the
arena-stored key (`wait_meta` returns the stored `meta` unchanged in a
sequential execution); a match bumps count and volume (wrapping `u64`
adds).  An empty slot is claimed (the compare-and-swap succeeds), arena
space is allocated and the decoded key written and published.  Hash match
with byte mismatch, or an occupied foreign slot, probes on.  The fuel is
the probe budget `0..=mask`, i.e. `mask + 1` tries.  The source's
`idx & mask`, with `mask` one less than the power-of-two capacity, is
written `idx % (mask + 1)` here. -/
def recordLoop (mask : Nat) (slots : List SymbolSlot) (arena : Arena)
    (raw : List Nat) (hash dlen qty : Nat) :
    Nat → Nat → Except ParseErrorKind Unit × (List SymbolSlot × Arena)
  | _, 0 => (Except.error ParseErrorKind.TableFull, (slots, arena))
  | idx, probes + 1 =>
    let slot := slots.getD idx SymbolSlot.empty
    if slot.key_hash = hash then
      match arena.get (unpack_meta slot.meta).1 (unpack_meta slot.meta).2 with
      | none => (Except.error ParseErrorKind.ArenaFull, (slots, arena))
      | some stored =>
        if escaped_eq raw stored then
          (Except.ok (),
           (slots.set idx { slot with
              count := (slot.count + 1) % U64,
              volume := (slot.volume + qty) % U64 }, arena))
        else recordLoop mask slots arena raw hash dlen qty ((idx + 1) % (mask + 1)) probes
    else if slot.key_hash = 0 then
      let slots' := slots.set idx { slot with key_hash := hash }
      match arena.alloc dlen with
      | none => (Except.error ParseErrorKind.ArenaFull, (slots', arena))
      | some (off, arena') =>
        if off + dlen > arena'.buf.length then
          (Except.error ParseErrorKind.ArenaFull, (slots', arena'))
        else
          (Except.ok (),
           (slots'.set idx { key_hash := hash, meta := pack_meta off dlen,
                             count := 1, volume := qty },
            { arena' with buf := writeBytes arena'.buf off (decode raw) }))
    else recordLoop mask slots arena raw hash dlen qty ((idx + 1) % (mask + 1)) probes

/-- Model of `SymbolTable::record` (lib.rs). -/
def SymbolTable.record (t : SymbolTable) (symbol : List Nat) (qty : Nat) :
    Except ParseErrorKind Unit × SymbolTable :=
  let hl := hash64_and_len symbol
  let r := recordLoop t.mask t.slots t.arena symbol hl.1 hl.2 qty
    (hl.1 % (t.mask + 1)) (t.mask + 1)
  (r.1, { t with slots := r.2.1, arena := r.2.2 })

/-- Model of `SymbolTable::snapshot` (lib.rs) over a slot list: skip empty slots,
skip claimed-but-unpublished slots (`meta == 0`), skip out-of-range
metadata, and emit `(stored bytes, count, volume)` rows in slot order. -/
def snapshotAux (arena : Arena) : List SymbolSlot → List (List Nat × Nat × Nat)
  | [] => []
  | slot :: rest =>
    if slot.key_hash = 0 then snapshotAux arena rest
    else if slot.meta = 0 then snapshotAux arena rest
    else
      match arena.get (unpack_meta slot.meta).1 (unpack_meta slot.meta).2 with
      | none => snapshotAux arena rest
      | some stored => (stored, slot.count, slot.volume) :: snapshotAux arena rest

/-- Model of `SymbolTable::snapshot` (lib.rs). -/
def SymbolTable.snapshot (t : SymbolTable) : List (List Nat × Nat × Nat) :=
  snapshotAux t.arena t.slots

/-- Model of `TradeAnalyzer` (lib.rs): four global `u64` counters plus the symbol
table. -/
structure TradeAnalyzer where
  total_messages : Nat
  malformed_messages : Nat
  side_buy : Nat
  side_sell : Nat
  symbols : SymbolTable
deriving DecidableEq, Repr

/-- Model of `TradeAnalyzer::new` (lib.rs). -/
def TradeAnalyzer.new (max_symbols arena_bytes : Nat) : TradeAnalyzer :=
  ⟨0, 0, 0, 0, SymbolTable.new max_symbols arena_bytes⟩

/-- The `.map_err(|kind| ParseError { kind, at_byte: 0 })` on the result of
`record` in `TradeAnalyzer::process_message` (lib.rs). -/
def recordErrToParse : Except ParseErrorKind Unit → Except ParseError Unit
  | Except.error k => Except.error ⟨k, 0⟩
  | Except.ok _ => Except.ok ()

/-- Model of `TradeAnalyzer::process_message` (lib.rs): parse; on success bump
`total_messages` and the side counter for `'1'`/`'2'` (wrapping adds),
then record the symbol, surfacing a record failure as a `ParseError` at
byte 0. -/
def TradeAnalyzer.process_message (a : TradeAnalyzer) (raw : List Nat) :
    Except ParseError Unit × TradeAnalyzer :=
  match parse_required raw with
  | Except.error e => (Except.error e, a)
  | Except.ok parsed =>
    let a1 := { a with total_messages := (a.total_messages + 1) % U64 }
    let a2 :=
      if parsed.side = 49 then { a1 with side_buy := (a1.side_buy + 1) % U64 }
      else if parsed.side = 50 then { a1 with side_sell := (a1.side_sell + 1) % U64 }
      else a1
    let r := a2.symbols.record parsed.symbol parsed.quantity
    (recordErrToParse r.1, { a2 with symbols := r.2 })

/-- Model of `TradeAnalyzer::process_message_lossy` (lib.rs): never fails; on an
inner error it bumps `malformed_messages` and logs the error via the
caller's closure — the returned list is the sequence of `log_fn`
invocations. -/
def TradeAnalyzer.process_message_lossy (a : TradeAnalyzer) (raw : List Nat) :
    TradeAnalyzer × List ParseError :=
  match a.process_message raw with
  | (Except.error e, a') =>
    ({ a' with malformed_messages := (a'.malformed_messages + 1) % U64 }, [e])
  | (Except.ok _, a') => (a', [])

/-- Run a sequence of `alloc` requests, collecting the granted
`(offset, length)` ranges; failed requests leave the arena unchanged. -/
def allocAll (a : Arena) : List Nat → List (Nat × Nat) × Arena
  | [] => ([], a)
  | len :: rest =>
    match a.alloc len with
    | none => allocAll a rest
    | some (off, a') =>
      let r := allocAll a' rest
      ((off, len) :: r.1, r.2)

/-- The encoding the spec's round-trip property feeds to the decoder:
each literal `'|'` (124) is escaped as the two-byte sequence `'\' '|'`
(92, 124); every other byte is copied (this is how the repository's tests
spell escaped symbols). -/
def escapePipes : List Nat → List Nat
  | [] => []
  | b :: rest =>
    if b = FIELD_DELIM then ESCAPE :: FIELD_DELIM :: escapePipes rest
    else b :: escapePipes rest

/-- Decidable equality on `Except`, for evaluating parse results on
concrete inputs. -/
instance exceptDecidableEq {ε α : Type} [DecidableEq ε] [DecidableEq α] :
    DecidableEq (Except ε α) := fun x y =>
  match x, y with
  | Except.error e, Except.error e' =>
    if h : e = e' then isTrue (by rw [h])
    else isFalse (by intro hc; injection hc; contradiction)
  | Except.ok a, Except.ok b =>
    if h : a = b then isTrue (by rw [h])
    else isFalse (by intro hc; injection hc; contradiction)
  | Except.error _, Except.ok _ => isFalse (by intro hc; injection hc)
  | Except.ok _, Except.error _ => isFalse (by intro hc; injection hc)

/-- The split the spec's words describe: split the field at the first
*unescaped* `'='` (61), using the same escape convention as the field
delimiter scan; an empty tag is rejected.  This is the spec-side
definition compared against the source's `split_tag_value`. -/
def splitTagValueSpec (field : List Nat) : Option (List Nat × List Nat) :=
  match find_unescaped field 0 61 with
  | none => none
  | some i =>
    if i = 0 then none
    else some (field.take i, field.drop (i + 1))

/-- A table built by `SymbolTable.new 8 64` after recording the eight
distinct one-byte symbols `A`..`H`: every slot is occupied. -/
def c5DemoTable : SymbolTable :=
  (((((((((SymbolTable.new 8 64).record [65] 1).2.record [66] 1).2.record
    [67] 1).2.record [68] 1).2.record [69] 1).2.record [70] 1).2.record
    [71] 1).2.record [72] 1).2

/-- The in-place update of a matched slot: count and volume bumped by
wrapping 64-bit adds, key and meta untouched. -/
def bumpSlot (s : SymbolSlot) (q : Nat) : SymbolSlot :=
  { s with count := (s.count + 1) % U64, volume := (s.volume + q) % U64 }

/-! ## Theorems -/

/-- Induction on a byte list that steps over either one or two leading
bytes, matching the shape of the escape-decoding recursions. -/
theorem twoStep {P : List Nat → Prop} (h0 : P []) (h1 : ∀ a, P [a])
    (h2 : ∀ a b rest, P rest → P (b :: rest) → P (a :: b :: rest)) :
    ∀ l, P l
  | [] => h0
  | [a] => h1 a
  | a :: b :: rest =>
    h2 a b rest (twoStep h0 h1 h2 rest) (twoStep h0 h1 h2 (b :: rest))

theorem decoded_len_eq_length_decode (raw : List Nat) :
    decoded_len raw = (decode raw).length := by
  induction raw using twoStep with
  | h0 => simp [decoded_len, decode]
  | h1 a => by_cases ha : a = ESCAPE <;> simp [decoded_len, decode, ha]
  | h2 a b rest ih1 ih2 =>
    by_cases ha : a = ESCAPE <;>
      simp [decoded_len, decode, ha, ih1, ih2, Nat.add_comm]

theorem hash64Loop_eq_decode (raw : List Nat) :
    ∀ h n, hash64Loop raw h n = (fnvFold (decode raw) h, n + (decode raw).length) := by
  induction raw using twoStep with
  | h0 => intro h n; simp [hash64Loop, decode, fnvFold]
  | h1 a =>
    intro h n
    by_cases ha : a = ESCAPE <;> simp [hash64Loop, decode, ha, fnvFold]
  | h2 a b rest ih1 ih2 =>
    intro h n
    by_cases ha : a = ESCAPE
    · simp only [hash64Loop, decode, ha, if_pos rfl, fnvFold, ih1]
      simp [List.length_cons]; omega
    · simp only [hash64Loop, decode, if_neg ha, fnvFold, ih2]
      simp [List.length_cons]; omega

/-- The hash-and-length of a raw string is a function of its decoded form:
two raws with equal decodings hash identically and report the same length. -/
theorem hash64_and_len_eq_decode (raw : List Nat) :
    hash64_and_len raw =
      (if fnvFold (decode raw) 0xcbf29ce484222325 = 0 then 1
       else fnvFold (decode raw) 0xcbf29ce484222325,
       (decode raw).length) := by
  unfold hash64_and_len
  rw [hash64Loop_eq_decode]
  by_cases h : fnvFold (decode raw) 0xcbf29ce484222325 = 0 <;> simp [h]

/-- The remapped hash is never the empty-slot sentinel 0. -/
theorem hash64_fst_ne_zero (raw : List Nat) : (hash64_and_len raw).1 ≠ 0 := by
  unfold hash64_and_len
  by_cases h : (hash64Loop raw 0xcbf29ce484222325 0).1 = 0 <;> simp [h]

/-- Model of `escaped_eq` decides equality between the decoded form of the raw input
and the stored bytes. -/
theorem escaped_eq_iff_decode (raw stored : List Nat) :
    escaped_eq raw stored = true ↔ decode raw = stored := by
  induction raw using twoStep generalizing stored with
  | h0 =>
    cases stored <;> simp [escaped_eq, decode, List.isEmpty]
  | h1 a =>
    by_cases ha : a = ESCAPE
    · cases stored with
      | nil => simp [escaped_eq, decode, ha]
      | cons s srest =>
        by_cases hs : s = a
        · subst hs
          cases srest <;> simp [escaped_eq, decode, ha, List.isEmpty]
        · subst ha
          simp [escaped_eq, decode, hs, Ne.symm hs]
    · cases stored with
      | nil => simp [escaped_eq, decode, ha]
      | cons s srest =>
        by_cases hs : s = a
        · subst hs
          cases srest <;> simp [escaped_eq, decode, ha, List.isEmpty]
        · simp [escaped_eq, decode, ha, hs, Ne.symm hs, eq_comm]
  | h2 a b rest ih1 ih2 =>
    by_cases ha : a = ESCAPE
    · cases stored with
      | nil => simp [escaped_eq, decode, ha]
      | cons s srest =>
        by_cases hs : s = b
        · subst hs; simp [escaped_eq, decode, ha, ih1]
        · simp [escaped_eq, decode, ha, hs, Ne.symm hs]
    · cases stored with
      | nil => simp [escaped_eq, decode, ha]
      | cons s srest =>
        by_cases hs : s = a
        · subst hs; simp [escaped_eq, decode, ha, ih2]
        · simp [escaped_eq, decode, ha, hs, Ne.symm hs]

theorem le_accumVal (s : List Nat) : ∀ v, v ≤ accumVal v s := by
  induction s with
  | nil => intro v; simp [accumVal]
  | cons d rest ih =>
    intro v
    have h1 : v ≤ v * 10 + (d - 48) := by omega
    calc v ≤ v * 10 + (d - 48) := h1
      _ ≤ accumVal (v * 10 + (d - 48)) rest := ih _
      _ = accumVal v (d :: rest) := rfl

theorem accumVal_lt (s : List Nat) (hd : ∀ b ∈ s, 48 ≤ b ∧ b ≤ 57) :
    ∀ v, accumVal v s < (v + 1) * 10 ^ s.length := by
  induction s with
  | nil => intro v; simp [accumVal]
  | cons d rest ih =>
    intro v
    have hdd := hd d (by simp)
    have hrest : ∀ b ∈ rest, 48 ≤ b ∧ b ≤ 57 := fun b hb => hd b (by simp [hb])
    have h1 : accumVal v (d :: rest) = accumVal (v * 10 + (d - 48)) rest := rfl
    have h2 := ih hrest (v * 10 + (d - 48))
    have h3 : (v * 10 + (d - 48) + 1) ≤ (v + 1) * 10 := by omega
    calc accumVal v (d :: rest)
        < (v * 10 + (d - 48) + 1) * 10 ^ rest.length := by rw [h1]; exact h2
      _ ≤ (v + 1) * 10 * 10 ^ rest.length := by
          exact Nat.mul_le_mul_right _ h3
      _ = (v + 1) * 10 ^ (d :: rest).length := by
          simp [List.length_cons, pow_succ]; ring

/-- A digit string's value is below `10 ^ length`. -/
theorem digitsVal_lt (s : List Nat) (hd : ∀ b ∈ s, 48 ≤ b ∧ b ≤ 57) :
    digitsVal s < 10 ^ s.length := by
  have := accumVal_lt s hd 0
  simpa [digitsVal] using this

theorem parseU64Loop_eq (s : List Nat) :
    ∀ v, v < U64 →
      parseU64Loop s v =
        if (∀ b ∈ s, 48 ≤ b ∧ b ≤ 57) ∧ accumVal v s < U64
        then some (accumVal v s) else none := by
  induction s with
  | nil =>
    intro v hv
    simp [parseU64Loop, accumVal, hv]
  | cons d rest ih =>
    intro v hv
    have hstep : accumVal v (d :: rest) = accumVal (v * 10 + (d - 48)) rest := rfl
    by_cases hdd : 48 ≤ d ∧ d ≤ 57
    · by_cases hmul : v * 10 < U64
      · by_cases hadd : v * 10 + (d - 48) < U64
        · rw [show parseU64Loop (d :: rest) v =
              parseU64Loop rest (v * 10 + (d - 48)) by
            simp [parseU64Loop, checkedMul, checkedAdd, hdd, hmul, hadd]]
          rw [ih _ hadd, hstep]
          by_cases hC : (∀ b ∈ rest, 48 ≤ b ∧ b ≤ 57) ∧
              accumVal (v * 10 + (d - 48)) rest < U64
          · rw [if_pos hC, if_pos ⟨fun b hb => by
              rcases List.mem_cons.mp hb with h | h
              · exact h ▸ hdd
              · exact hC.1 b h, hC.2⟩]
          · rw [if_neg hC, if_neg (fun h =>
              hC ⟨fun b hb => h.1 b (List.mem_cons_of_mem d hb), h.2⟩)]
        · have hge : ¬ accumVal v (d :: rest) < U64 := by
            rw [hstep]
            have := le_accumVal rest (v * 10 + (d - 48))
            omega
          rw [show parseU64Loop (d :: rest) v = none by
            simp [parseU64Loop, checkedMul, checkedAdd, hdd, hmul, hadd]]
          rw [if_neg (fun h => hge h.2)]
      · have hge : ¬ accumVal v (d :: rest) < U64 := by
          rw [hstep]
          have := le_accumVal rest (v * 10 + (d - 48))
          omega
        rw [show parseU64Loop (d :: rest) v = none by
          simp [parseU64Loop, checkedMul, hdd, hmul]]
        rw [if_neg (fun h => hge h.2)]
    · rw [show parseU64Loop (d :: rest) v = none by
        simp [parseU64Loop, hdd]]
      rw [if_neg (fun h => hdd (h.1 d (List.mem_cons_self d rest)))]

/-- Model of `parse_u64` succeeds exactly on non-empty all-digit strings whose value
fits in 64 bits, and then returns that value. -/
theorem parse_u64_eq (s : List Nat) :
    parse_u64 s =
      if s ≠ [] ∧ (∀ b ∈ s, 48 ≤ b ∧ b ≤ 57) ∧ digitsVal s < U64
      then some (digitsVal s) else none := by
  by_cases hs : s = []
  · subst hs; simp [parse_u64]
  · have hne : ¬ s.isEmpty = true := by simp [List.isEmpty_iff, hs]
    by_cases hesc : s.contains ESCAPE = true
    · have hnd : ¬(∀ b ∈ s, 48 ≤ b ∧ b ≤ 57) := by
        intro hall
        have hmem : ESCAPE ∈ s := by
          simpa [List.contains, List.elem_iff] using hesc
        have := hall ESCAPE hmem
        simp [ESCAPE] at this
      rw [show parse_u64 s = none by
        unfold parse_u64; rw [if_neg hne, if_pos hesc]]
      rw [if_neg (fun h => hnd h.2.1)]
    · rw [show parse_u64 s = parseU64Loop s 0 by
        unfold parse_u64; rw [if_neg hne, if_neg hesc]]
      have h0 : (0 : Nat) < U64 := by norm_num [U64]
      rw [parseU64Loop_eq s 0 h0]
      by_cases hC : (∀ b ∈ s, 48 ≤ b ∧ b ≤ 57) ∧ accumVal 0 s < U64
      · rw [if_pos hC, if_pos ⟨hs, hC.1, hC.2⟩]; rfl
      · rw [if_neg hC, if_neg (fun h => hC ⟨h.2.1, h.2.2⟩)]

theorem digit_group_value_lt (s : List Nat) (k : Nat)
    (hd : ∀ b ∈ s, 48 ≤ b ∧ b ≤ 57) (hl : s.length ≤ k) :
    digitsVal s < 10 ^ k := by
  calc digitsVal s < 10 ^ s.length := digitsVal_lt s hd
    _ ≤ 10 ^ k := Nat.pow_le_pow_right (by norm_num) hl

/-- Model of `parse_timestamp` succeeds exactly on well-formed slices, and on them
returns the base-10 packed seconds and the exact 6 microsecond digits. -/
theorem parse_timestamp_eq (s : List Nat) :
    parse_timestamp s =
      if tsWellFormed s
      then some ⟨digitsVal (s.take 8) * 1000000 + digitsVal ((s.drop 9).take 2) * 10000 +
                 digitsVal ((s.drop 12).take 2) * 100 + digitsVal ((s.drop 15).take 2),
                 digitsVal ((s.drop 18).take 6)⟩
      else none := by
  by_cases hlen : s.length < 24
  · rw [show parse_timestamp s = none by unfold parse_timestamp; rw [if_pos hlen]]
    rw [if_neg (fun h => absurd h.1 (by omega))]
  · by_cases hsep : s.getD 8 0 = 45 ∧ s.getD 11 0 = 58 ∧ s.getD 14 0 = 58 ∧
        s.getD 17 0 = 46
    · by_cases hesc : s.contains ESCAPE = true
      · rw [show parse_timestamp s = none by
          unfold parse_timestamp
          rw [if_neg hlen, if_neg (not_not_intro hsep), if_pos hesc]]
        rw [if_neg (fun h => h.2.2.2.2.2.1 hesc)]
      · -- lengths of the five groups
        have hl8 : (s.take 8).length = 8 := by
          simp [List.length_take]; omega
        have hl9 : ((s.drop 9).take 2).length = 2 := by
          simp [List.length_take, List.length_drop]; omega
        have hl12 : ((s.drop 12).take 2).length = 2 := by
          simp [List.length_take, List.length_drop]; omega
        have hl15 : ((s.drop 15).take 2).length = 2 := by
          simp [List.length_take, List.length_drop]; omega
        have hl18 : ((s.drop 18).take 6).length = 6 := by
          simp [List.length_take, List.length_drop]; omega
        by_cases hdig : (∀ b ∈ s.take 8, 48 ≤ b ∧ b ≤ 57) ∧
            (∀ b ∈ (s.drop 9).take 2, 48 ≤ b ∧ b ≤ 57) ∧
            (∀ b ∈ (s.drop 12).take 2, 48 ≤ b ∧ b ≤ 57) ∧
            (∀ b ∈ (s.drop 15).take 2, 48 ≤ b ∧ b ≤ 57) ∧
            (∀ b ∈ (s.drop 18).take 6, 48 ≤ b ∧ b ≤ 57)
        · obtain ⟨h8, h9, h12, h15, h18⟩ := hdig
          have hv8 : digitsVal (s.take 8) < 10 ^ 8 :=
            digit_group_value_lt _ 8 h8 (le_of_eq hl8)
          have hv9 : digitsVal ((s.drop 9).take 2) < 10 ^ 2 :=
            digit_group_value_lt _ 2 h9 (le_of_eq hl9)
          have hv12 : digitsVal ((s.drop 12).take 2) < 10 ^ 2 :=
            digit_group_value_lt _ 2 h12 (le_of_eq hl12)
          have hv15 : digitsVal ((s.drop 15).take 2) < 10 ^ 2 :=
            digit_group_value_lt _ 2 h15 (le_of_eq hl15)
          have hv18 : digitsVal ((s.drop 18).take 6) < 10 ^ 6 :=
            digit_group_value_lt _ 6 h18 (le_of_eq hl18)
          have hU : (10:Nat) ^ 8 < U64 := by norm_num [U64]
          have hwf : tsWellFormed s :=
            ⟨by omega, hsep.1, hsep.2.1, hsep.2.2.1, hsep.2.2.2, hesc,
             h8, h9, h12, h15, h18⟩
          have hne8 : s.take 8 ≠ [] := by
            intro h; rw [h] at hl8; simp at hl8
          have hne9 : (s.drop 9).take 2 ≠ [] := by
            intro h; rw [h] at hl9; simp at hl9
          have hne12 : (s.drop 12).take 2 ≠ [] := by
            intro h; rw [h] at hl12; simp at hl12
          have hne15 : (s.drop 15).take 2 ≠ [] := by
            intro h; rw [h] at hl15; simp at hl15
          have hne18 : (s.drop 18).take 6 ≠ [] := by
            intro h; rw [h] at hl18; simp at hl18
          unfold parse_timestamp
          rw [if_neg hlen, if_neg (not_not_intro hsep), if_neg hesc]
          rw [parse_u64_eq, if_pos ⟨hne8, h8, by omega⟩]
          rw [parse_u64_eq, if_pos ⟨hne9, h9, by omega⟩]
          rw [parse_u64_eq, if_pos ⟨hne12, h12, by omega⟩]
          rw [parse_u64_eq, if_pos ⟨hne15, h15, by omega⟩]
          rw [parse_u64_eq, if_pos ⟨hne18, h18, by omega⟩]
          have hmic : digitsVal ((s.drop 18).take 6) % 2 ^ 32 =
              digitsVal ((s.drop 18).take 6) := Nat.mod_eq_of_lt (by omega)
          have hnotbig : ¬ digitsVal ((s.drop 18).take 6) % 2 ^ 32 > 999999 := by
            rw [hmic]; omega
          simp only [hnotbig, if_neg, if_false, ite_false, if_pos hwf]
          have hsec : (digitsVal (s.take 8) * 1000000 +
              digitsVal ((s.drop 9).take 2) * 10000 +
              digitsVal ((s.drop 12).take 2) * 100 +
              digitsVal ((s.drop 15).take 2)) % U64 =
              digitsVal (s.take 8) * 1000000 +
              digitsVal ((s.drop 9).take 2) * 10000 +
              digitsVal ((s.drop 12).take 2) * 100 +
              digitsVal ((s.drop 15).take 2) := by
            apply Nat.mod_eq_of_lt
            have : (10:Nat) ^ 8 * 1000000 + 10 ^ 2 * 10000 + 10 ^ 2 * 100 + 10 ^ 2
                ≤ U64 := by norm_num [U64]
            have hb : digitsVal (s.take 8) * 1000000 ≤ (10 ^ 8 - 1) * 1000000 :=
              Nat.mul_le_mul_right _ (by omega)
            omega
          simp only [hsec, hmic]
        · -- some digit group fails: parse_u64 on it returns none
          have hnwf : ¬ tsWellFormed s := by
            intro hwf
            exact hdig ⟨hwf.2.2.2.2.2.2.1, hwf.2.2.2.2.2.2.2.1,
              hwf.2.2.2.2.2.2.2.2.1, hwf.2.2.2.2.2.2.2.2.2.1,
              hwf.2.2.2.2.2.2.2.2.2.2⟩
          rw [if_neg hnwf]
          unfold parse_timestamp
          rw [if_neg hlen, if_neg (not_not_intro hsep), if_neg hesc]
          rcases not_and_or.mp hdig with h | hrest
          · rw [parse_u64_eq (s.take 8), if_neg (fun hc => h hc.2.1)]
          rcases not_and_or.mp hrest with h | hrest
          · rw [parse_u64_eq ((s.drop 9).take 2), if_neg (fun hc => h hc.2.1)]
            cases parse_u64 (s.take 8) <;> rfl
          rcases not_and_or.mp hrest with h | hrest
          · rw [parse_u64_eq ((s.drop 12).take 2), if_neg (fun hc => h hc.2.1)]
            cases parse_u64 (s.take 8) <;>
              cases parse_u64 ((s.drop 9).take 2) <;> rfl
          rcases not_and_or.mp hrest with h | h
          · rw [parse_u64_eq ((s.drop 15).take 2), if_neg (fun hc => h hc.2.1)]
            cases parse_u64 (s.take 8) <;>
              cases parse_u64 ((s.drop 9).take 2) <;>
              cases parse_u64 ((s.drop 12).take 2) <;> rfl
          · rw [parse_u64_eq ((s.drop 18).take 6), if_neg (fun hc => h hc.2.1)]
            cases parse_u64 (s.take 8) <;>
              cases parse_u64 ((s.drop 9).take 2) <;>
              cases parse_u64 ((s.drop 12).take 2) <;>
              cases parse_u64 ((s.drop 15).take 2) <;> rfl
    · rw [show parse_timestamp s = none by
        unfold parse_timestamp; rw [if_neg hlen, if_pos hsep]]
      rw [if_neg (fun h => hsep ⟨h.2.1, h.2.2.1, h.2.2.2.1, h.2.2.2.2.1⟩)]

theorem findUnescapedAux_bounds (needle : Nat) (l : List Nat) :
    ∀ i j, findUnescapedAux needle l i = some j → i ≤ j ∧ j < i + l.length := by
  induction l using twoStep with
  | h0 => intro i j h; simp [findUnescapedAux] at h
  | h1 b =>
    intro i j h
    by_cases hb : b = ESCAPE
    · simp [findUnescapedAux, hb] at h
    · rw [show findUnescapedAux needle [b] i =
          (if b = needle then some i else none) by
        simp [findUnescapedAux, hb]] at h
      by_cases hn : b = needle
      · rw [if_pos hn] at h
        simp only [Option.some.injEq] at h
        simp [← h]
      · rw [if_neg hn] at h
        simp at h
  | h2 a b rest ih1 ih2 =>
    intro i j h
    by_cases ha : a = ESCAPE
    · rw [show findUnescapedAux needle (a :: b :: rest) i =
          findUnescapedAux needle rest (i + 2) by
        simp [findUnescapedAux, ha]] at h
      have := ih1 (i + 2) j h
      simp only [List.length_cons] at *
      omega
    · rw [show findUnescapedAux needle (a :: b :: rest) i =
          (if a = needle then some i
           else findUnescapedAux needle (b :: rest) (i + 1)) by
        simp [findUnescapedAux, ha]] at h
      by_cases hn : a = needle
      · rw [if_pos hn] at h
        simp only [Option.some.injEq] at h
        simp only [List.length_cons]
        omega
      · rw [if_neg hn] at h
        have := ih2 (i + 1) j h
        simp only [List.length_cons] at *
        omega

/-- A found needle lies at or after the start position and inside the
buffer. -/
theorem find_unescaped_bounds (buf : List Nat) (needle i j : Nat)
    (h : find_unescaped buf i needle = some j) : i ≤ j ∧ j < buf.length := by
  have hb := findUnescapedAux_bounds needle (buf.drop i) i j h
  have hlen : (buf.drop i).length = buf.length - i := by simp
  omega

theorem firstEqIdx_eq_none (field : List Nat) :
    firstEqIdx field = none ↔ 61 ∉ field := by
  induction field with
  | nil => simp [firstEqIdx]
  | cons b rest ih =>
    by_cases hb : b = 61
    · subst hb; simp [firstEqIdx]
    · simp [firstEqIdx, hb, ih, Ne.symm hb]

theorem firstEqIdx_eq_some (field : List Nat) :
    ∀ i, firstEqIdx field = some i →
      ∃ t v, field = t ++ 61 :: v ∧ t.length = i ∧ 61 ∉ t := by
  induction field with
  | nil => intro i h; simp [firstEqIdx] at h
  | cons b rest ih =>
    intro i h
    by_cases hb : b = 61
    · subst hb
      simp [firstEqIdx] at h
      exact ⟨[], rest, by simp, by simp [h], by simp⟩
    · rw [firstEqIdx, if_neg hb] at h
      cases hfe : firstEqIdx rest with
      | none => rw [hfe] at h; simp at h
      | some k =>
        rw [hfe] at h
        simp at h
        obtain ⟨t', v', hdec, hlen, hnmem⟩ := ih k hfe
        refine ⟨b :: t', v', by simp [hdec], by simp [hlen]; omega, ?_⟩
        intro hmem
        rcases List.mem_cons.mp hmem with hh | hh
        · exact hb hh.symm
        · exact hnmem hh

theorem firstEqIdx_append (t v : List Nat) (hnm : 61 ∉ t) :
    firstEqIdx (t ++ 61 :: v) = some t.length := by
  induction t with
  | nil => simp [firstEqIdx]
  | cons b t' ih =>
    have hb : b ≠ 61 := fun h => hnm (by simp [h])
    have hnm' : 61 ∉ t' := fun h => hnm (by simp [h])
    simp [firstEqIdx, hb, ih hnm']

/-- Model of `split_tag_value` succeeds exactly when it can split the field as
`tag ++ '=' ++ value` with a non-empty `=`-free tag; the value may contain
further `'='` bytes. -/
theorem split_tag_value_eq_some (field t v : List Nat) :
    split_tag_value field = some (t, v) ↔
      field = t ++ 61 :: v ∧ 61 ∉ t ∧ t ≠ [] := by
  constructor
  · intro h
    unfold split_tag_value at h
    cases hfe : firstEqIdx field with
    | none => rw [hfe] at h; simp at h
    | some i =>
      rw [hfe] at h
      simp only at h
      by_cases htag : field.take i = []
      · rw [if_pos htag] at h; simp at h
      · rw [if_neg htag] at h
        simp only [Option.some.injEq, Prod.mk.injEq] at h
        obtain ⟨t', v', hdec, hlen, hnmem⟩ := firstEqIdx_eq_some field i hfe
        have htake : field.take i = t' := by
          rw [hdec, ← hlen]; exact List.take_left t' (61 :: v')
        have hdrop : field.drop (i + 1) = v' := by
          rw [hdec, ← hlen]
          have h2 : t' ++ 61 :: v' = (t' ++ [61]) ++ v' := by simp
          rw [h2, show t'.length + 1 = (t' ++ [61]).length by simp]
          exact List.drop_left _ _
        obtain ⟨ht, hv⟩ := h
        subst ht; subst hv
        rw [htake, hdrop]
        exact ⟨hdec, hnmem, fun hh => htag (htake.trans hh)⟩
  · intro ⟨hdec, hnm, hne⟩
    have htake : (t ++ 61 :: v).take t.length = t := List.take_left t (61 :: v)
    have hdrop : (t ++ 61 :: v).drop (t.length + 1) = v := by
      have h2 : t ++ 61 :: v = (t ++ [61]) ++ v := by simp
      rw [h2, show t.length + 1 = (t ++ [61]).length by simp]
      exact List.drop_left _ _
    subst hdec
    unfold split_tag_value
    rw [firstEqIdx_append t v hnm]
    simp only
    rw [htake, hdrop, if_neg hne]

/-- Model of `split_tag_value` fails exactly when the field has no `'='` at all or
starts with `'='` (empty tag). -/
theorem split_tag_value_eq_none (field : List Nat) :
    split_tag_value field = none ↔ 61 ∉ field ∨ field.head? = some 61 := by
  constructor
  · intro h
    unfold split_tag_value at h
    cases hfe : firstEqIdx field with
    | none => exact Or.inl ((firstEqIdx_eq_none field).mp hfe)
    | some i =>
      rw [hfe] at h
      simp only at h
      by_cases htag : field.take i = []
      · obtain ⟨t', v', hdec, hlen, _⟩ := firstEqIdx_eq_some field i hfe
        rcases List.take_eq_nil_iff.mp htag with hi | hnil
        · subst hi
          have ht' : t' = [] := List.eq_nil_of_length_eq_zero hlen
          subst ht'
          right; rw [hdec]; rfl
        · rw [hnil] at hdec
          exact absurd hdec.symm (List.append_ne_nil_of_right_ne_nil _ (by simp))
      · rw [if_neg htag] at h; simp at h
  · intro h
    rcases h with h | h
    · unfold split_tag_value
      rw [(firstEqIdx_eq_none field).mpr h]
    · cases field with
      | nil => simp at h
      | cons b rest =>
        simp only [List.head?_cons, Option.some.injEq] at h
        subst h
        unfold split_tag_value
        rw [show firstEqIdx (61 :: rest) = some 0 by simp [firstEqIdx]]
        simp

/-- A successful `parseField` strictly advances the position. -/
theorem parseField_advances (raw : List Nat) (i : Nat) (st : PartialParsed)
    (hi : i < raw.length) :
    ∀ st' i', parseField raw i st = Except.ok (st', i') → i < i' := by
  intro st' i' h
  unfold parseField at h
  split at h
  next j hfe =>
    have hj := find_unescaped_bounds raw FIELD_DELIM i j hfe
    split at h
    · simp only [Except.ok.injEq, Prod.mk.injEq] at h
      omega
    · split at h
      · simp at h
      next tag value hsp =>
        cases hd : dispatch st tag value i with
        | error e => rw [hd] at h; simp [Except.map] at h
        | ok st'' =>
          rw [hd] at h
          simp only [Except.map, Except.ok.injEq, Prod.mk.injEq] at h
          omega
  next hfe =>
    split at h
    · simp only [Except.ok.injEq, Prod.mk.injEq] at h
      omega
    · split at h
      · simp at h
      next tag value hsp =>
        cases hd : dispatch st tag value i with
        | error e => rw [hd] at h; simp [Except.map] at h
        | ok st'' =>
          rw [hd] at h
          simp only [Except.map, Except.ok.injEq, Prod.mk.injEq] at h
          omega

/-- Any fuel of at least `raw.length - i` iterations yields the same loop
result: the fuel in this embedding is an artifact, not a semantic bound. -/
theorem parseLoop_fuel (raw : List Nat) :
    ∀ fuel fuel' i st, raw.length ≤ i + fuel → raw.length ≤ i + fuel' →
      parseLoop raw fuel i st = parseLoop raw fuel' i st := by
  intro fuel
  induction fuel with
  | zero =>
    intro fuel' i st h h'
    have hge : ¬ i < raw.length := by omega
    cases fuel' with
    | zero => rfl
    | succ f' => simp [parseLoop, hge]
  | succ f ih =>
    intro fuel' i st h h'
    cases fuel' with
    | zero =>
      have hge : ¬ i < raw.length := by omega
      simp [parseLoop, hge]
    | succ f' =>
      simp only [parseLoop]
      by_cases hi : i < raw.length
      · simp only [if_pos hi]
        cases hpf : parseField raw i st with
        | error e => rfl
        | ok p =>
          obtain ⟨st', i'⟩ := p
          have hadv := parseField_advances raw i st hi st' i' hpf
          exact ih f' i' st' (by omega) (by omega)
      · simp [hi]

theorem unpack_pack_meta (off len : Nat) (hoff : off < 2 ^ 32)
    (hlen : len < 2 ^ 32) : unpack_meta (pack_meta off len) = (off, len) := by
  unfold unpack_meta pack_meta U64
  have h32 : (2:Nat) ^ 32 = 4294967296 := by norm_num
  have h64 : (2:Nat) ^ 64 = 18446744073709551616 := by norm_num
  rw [h32, h64] at *
  simp only [Prod.mk.injEq]
  constructor <;> omega

theorem nextPow2Loop_spec (n : Nat) :
    ∀ fuel p, n ≤ 2 ^ p * 2 ^ fuel →
      ∃ k, p ≤ k ∧ nextPow2Loop n fuel (2 ^ p) = 2 ^ k ∧ n ≤ 2 ^ k ∧
        ∀ j, p ≤ j → j < k → 2 ^ j < n := by
  intro fuel
  induction fuel with
  | zero =>
    intro p h
    simp only [pow_zero, Nat.mul_one] at h
    exact ⟨p, le_refl p, rfl, h, fun j h1 h2 => absurd h1 (by omega)⟩
  | succ f ih =>
    intro p h
    by_cases hle : n ≤ 2 ^ p
    · exact ⟨p, le_refl p, by simp [nextPow2Loop, hle],
        hle, fun j h1 h2 => absurd h1 (by omega)⟩
    · have hstep : (2:Nat) ^ p * 2 = 2 ^ (p + 1) := by ring
      have h' : n ≤ 2 ^ (p + 1) * 2 ^ f := by
        rw [pow_succ] at h ⊢
        calc n ≤ 2 ^ p * (2 ^ f * 2) := h
          _ = 2 ^ p * 2 * 2 ^ f := by ring
      obtain ⟨k, hk1, hk2, hk3, hk4⟩ := ih (p + 1) h'
      refine ⟨k, by omega, ?_, hk3, ?_⟩
      · rw [show nextPow2Loop n (f + 1) (2 ^ p) = nextPow2Loop n f (2 ^ p * 2) by
          simp [nextPow2Loop, hle], hstep, hk2]
      · intro j h1 h2
        by_cases hjp : j = p
        · subst hjp; omega
        · exact hk4 j (by omega) h2

/-- Model of `nextPowerOfTwo n` is a power of two, at least `n`, and the least such
power: every smaller power of two is below `n`. -/
theorem nextPowerOfTwo_spec (n : Nat) :
    ∃ k, nextPowerOfTwo n = 2 ^ k ∧ n ≤ 2 ^ k ∧ ∀ j, j < k → 2 ^ j < n := by
  have h : n ≤ 2 ^ 0 * 2 ^ n := by
    simp only [pow_zero, Nat.one_mul]
    exact le_of_lt (Nat.lt_two_pow n)
  obtain ⟨k, _, hk2, hk3, hk4⟩ := nextPow2Loop_spec n n 0 h
  exact ⟨k, by simpa [nextPowerOfTwo] using hk2, hk3,
    fun j hj => hk4 j (Nat.zero_le j) hj⟩

theorem alloc_eq_none_iff (a : Arena) (len : Nat) :
    a.alloc len = none ↔ (len = 0 ∨ a.buf.length < a.next + len) := by
  unfold Arena.alloc
  by_cases h0 : len = 0
  · simp [h0]
  · by_cases hover : a.next + len > a.buf.length
    · simp [h0, hover]
    · simp [h0, hover]

theorem alloc_eq_some (a : Arena) (len off : Nat) (a' : Arena)
    (h : a.alloc len = some (off, a')) :
    off = a.next ∧ a' = { a with next := a.next + len } ∧ 0 < len ∧
      off + len ≤ a.buf.length := by
  unfold Arena.alloc at h
  by_cases h0 : len = 0
  · simp [h0] at h
  · by_cases hover : a.next + len > a.buf.length
    · simp [h0, hover] at h
    · simp only [h0, hover, if_neg, if_false, ite_false,
        Option.some.injEq, Prod.mk.injEq] at h
      refine ⟨h.1.symm, h.2.symm, Nat.pos_of_ne_zero h0, ?_⟩
      omega

theorem allocAll_spec (lens : List Nat) : ∀ a : Arena,
    (allocAll a lens).2.buf = a.buf ∧
    a.next ≤ (allocAll a lens).2.next ∧
    (∀ q ∈ (allocAll a lens).1,
      a.next ≤ q.1 ∧ 0 < q.2 ∧ q.1 + q.2 ≤ a.buf.length) ∧
    List.Pairwise (fun q1 q2 => q1.1 + q1.2 ≤ q2.1) (allocAll a lens).1 := by
  induction lens with
  | nil => intro a; simp [allocAll]
  | cons len rest ih =>
    intro a
    cases halloc : a.alloc len with
    | none =>
      simpa [allocAll, halloc] using ih a
    | some p =>
      obtain ⟨off, a'⟩ := p
      obtain ⟨hoff, ha', hpos, hbound⟩ := alloc_eq_some a len off a' halloc
      obtain ⟨ihbuf, ihnext, ihmem, ihpw⟩ := ih a'
      have hbuf' : a'.buf = a.buf := by rw [ha']
      have hnext' : a'.next = a.next + len := by rw [ha']
      constructor
      · simp only [allocAll, halloc]
        rw [ihbuf, hbuf']
      constructor
      · simp only [allocAll, halloc]
        omega
      constructor
      · intro q hq
        simp only [allocAll, halloc, List.mem_cons] at hq
        rcases hq with hq | hq
        · subst hq; exact ⟨by omega, hpos, by omega⟩
        · have := ihmem q hq
          rw [hbuf'] at this
          omega
      · simp only [allocAll, halloc, List.pairwise_cons]
        refine ⟨fun q hq => ?_, ihpw⟩
        have := ihmem q hq
        omega

/-- C6: `Arena::alloc` returns `None` exactly when the request is
zero-length or would advance the cursor past the fixed buffer size; a
successful call grants the range starting at the old cursor, strictly
advances the cursor and leaves the buffer size fixed; and any sequence of
successful allocations yields ranges that are non-empty, lie within the
buffer, are pairwise non-overlapping, and the cursor never decreases
(ranges are never reused or freed). -/
theorem c6_arena_alloc :
    (∀ (a : Arena) (len : Nat),
      a.alloc len = none ↔ (len = 0 ∨ a.buf.length < a.next + len)) ∧
    (∀ (a : Arena) (len off : Nat) (a' : Arena),
      a.alloc len = some (off, a') →
        off = a.next ∧ a'.next = a.next + len ∧ a.next < a'.next ∧
        off + len ≤ a.buf.length ∧ a'.buf = a.buf) ∧
    (∀ (a : Arena) (lens : List Nat),
      a.next ≤ (allocAll a lens).2.next ∧
      (∀ q ∈ (allocAll a lens).1,
        0 < q.2 ∧ q.1 + q.2 ≤ a.buf.length) ∧
      List.Pairwise
        (fun q1 q2 => q1.1 + q1.2 ≤ q2.1 ∨ q2.1 + q2.2 ≤ q1.1)
        (allocAll a lens).1) := by
  refine ⟨alloc_eq_none_iff, ?_, ?_⟩
  · intro a len off a' h
    obtain ⟨hoff, ha', hpos, hbound⟩ := alloc_eq_some a len off a' h
    refine ⟨hoff, by rw [ha'], by rw [ha']; simp; omega, hbound, by rw [ha']⟩
  · intro a lens
    obtain ⟨hbuf, hnext, hmem, hpw⟩ := allocAll_spec lens a
    exact ⟨hnext, fun q hq => ⟨(hmem q hq).2.1, (hmem q hq).2.2⟩,
      hpw.imp (fun h => Or.inl h)⟩

/-- Witness for C6 at a concrete arena: a 4-byte arena grants `[0, 2)` to a
2-byte request, and allocating `[2, 2, 2]` grants the two disjoint in-bounds
ranges `[0, 2)` and `[2, 4)` before running out. -/
theorem c6_arena_alloc_witness :
    ((⟨List.replicate 4 0, 0⟩ : Arena).alloc 2 =
      some (0, ⟨List.replicate 4 0, 2⟩)) ∧
    (0 = 0 ∧ (⟨List.replicate 4 0, 2⟩ : Arena).next = 0 + 2 ∧
      0 < (⟨List.replicate 4 0, 2⟩ : Arena).next ∧
      0 + 2 ≤ (List.replicate 4 (0:Nat)).length ∧
      (⟨List.replicate 4 0, 2⟩ : Arena).buf = List.replicate 4 0) :=
  ⟨by decide,
   c6_arena_alloc.2.1 ⟨List.replicate 4 0, 0⟩ 2 0 ⟨List.replicate 4 0, 2⟩
     (by decide)⟩

/-- C7: parsing a quantity (tag 38) value succeeds exactly on non-empty,
escape-free, all-ASCII-digit strings whose value fits in an unsigned
64-bit integer, returning exactly that value (checked arithmetic, no
wraparound); and a failing quantity value surfaces as `InvalidNumber`
at the field's starting byte in the tag dispatch. -/
theorem c7_quantity_parse :
    (∀ s v, parse_u64 s = some v ↔
      (s ≠ [] ∧ (∀ b ∈ s, b ≠ ESCAPE) ∧ (∀ b ∈ s, 48 ≤ b ∧ b ≤ 57) ∧
       digitsVal s < U64 ∧ v = digitsVal s)) ∧
    (∀ (st : PartialParsed) (value : List Nat) (i : Nat),
      parse_u64 value = none →
      dispatch st [51, 56] value i =
        Except.error ⟨ParseErrorKind.InvalidNumber, i⟩) := by
  constructor
  · intro s v
    rw [parse_u64_eq]
    by_cases hC : s ≠ [] ∧ (∀ b ∈ s, 48 ≤ b ∧ b ≤ 57) ∧ digitsVal s < U64
    · rw [if_pos hC]
      simp only [Option.some.injEq]
      constructor
      · intro hv
        refine ⟨hC.1, fun b hb => ?_, hC.2.1, hC.2.2, hv.symm⟩
        have := hC.2.1 b hb
        simp only [ESCAPE]
        omega
      · intro ⟨_, _, _, _, hv⟩
        exact hv.symm
    · rw [if_neg hC]
      constructor
      · intro h
        exact absurd h (by simp)
      · intro ⟨h1, _, h3, h4, _⟩
        exact absurd ⟨h1, h3, h4⟩ hC
  · intro st value i hpu
    simp [dispatch, hpu]

/-- Witness for C7: `"100"` parses to 100, and an escaped quantity value
is rejected with `InvalidNumber` at its field offset. -/
theorem c7_quantity_parse_witness :
    (parse_u64 [49, 48, 48] = some 100 ↔
      ([49, 48, 48] ≠ ([] : List Nat) ∧
       (∀ b ∈ [49, 48, 48], b ≠ ESCAPE) ∧
       (∀ b ∈ [49, 48, 48], 48 ≤ b ∧ b ≤ 57) ∧
       digitsVal [49, 48, 48] < U64 ∧ 100 = digitsVal [49, 48, 48])) ∧
    (parse_u64 [92, 49] = none →
      dispatch {} [51, 56] [92, 49] 5 =
        Except.error ⟨ParseErrorKind.InvalidNumber, 5⟩) :=
  ⟨c7_quantity_parse.1 [49, 48, 48] 100,
   c7_quantity_parse.2 {} [92, 49] 5⟩

/-- C9 counterexample: for `v = [92, 65, 124]` (a backslash, `'A'`, `'|'`),
escaping only the `'|'` and decoding does not round-trip: the leading
escape byte of `v` consumes the following `'A'`, yielding `[65, 124]`.
The claim's universal round-trip over all `v` containing `'|'` is false. -/
theorem c9_roundtrip_counterexample :
    (124 ∈ ([92, 65, 124] : List Nat)) ∧
    decode (escapePipes [92, 65, 124]) = [65, 124] ∧
    decode (escapePipes [92, 65, 124]) ≠ [92, 65, 124] ∧
    decoded_len (escapePipes [92, 65, 124]) ≠ ([92, 65, 124] : List Nat).length := by
  decide

/-- C9 (amended): for every byte string `v` containing a literal `'|'` and
no escape byte, escaping each `'|'` as `'\' '|'` and then decoding yields
exactly `v` — in particular the decoded value contains the original
unescaped `'|'` — and the decoded length equals `v`'s length. -/
theorem c9_roundtrip (v : List Nat) (hdelim : 124 ∈ v) (hesc : 92 ∉ v) :
    decode (escapePipes v) = v ∧
    124 ∈ decode (escapePipes v) ∧
    decoded_len (escapePipes v) = v.length := by
  have hdec : decode (escapePipes v) = v := by
    clear hdelim
    induction v with
    | nil => simp [escapePipes, decode]
    | cons b rest ih =>
      have hb : b ≠ 92 := fun h => hesc (by simp [h])
      have hrest : 92 ∉ rest := fun h => hesc (by simp [h])
      by_cases hd : b = FIELD_DELIM
      · subst hd
        rw [show escapePipes (FIELD_DELIM :: rest) =
            ESCAPE :: FIELD_DELIM :: escapePipes rest by simp [escapePipes]]
        rw [show decode (ESCAPE :: FIELD_DELIM :: escapePipes rest) =
            FIELD_DELIM :: decode (escapePipes rest) by simp [decode]]
        rw [ih hrest]
      · have hbe : ¬ b = ESCAPE := by simp only [ESCAPE]; exact hb
        rw [show escapePipes (b :: rest) = b :: escapePipes rest by
          simp [escapePipes, hd]]
        rw [show decode (b :: escapePipes rest) = b :: decode (escapePipes rest) by
          cases hrem : escapePipes rest <;> simp [decode, hbe]]
        rw [ih hrest]
  refine ⟨hdec, by rw [hdec]; exact hdelim, ?_⟩
  rw [decoded_len_eq_length_decode, hdec]

/-- Witness for C9 at `v = "A|B"`. -/
theorem c9_roundtrip_witness :
    (124 ∈ ([65, 124, 66] : List Nat)) ∧ (92 ∉ ([65, 124, 66] : List Nat)) ∧
    (decode (escapePipes [65, 124, 66]) = [65, 124, 66] ∧
     124 ∈ decode (escapePipes [65, 124, 66]) ∧
     decoded_len (escapePipes [65, 124, 66]) = ([65, 124, 66] : List Nat).length) :=
  ⟨by decide, by decide, c9_roundtrip [65, 124, 66] (by decide) (by decide)⟩

/-- C2 counterexample: the parser accepts an input that is not in the
fixed-width 24-byte format — a 25-byte slice with a seventh microsecond
digit parses successfully (the source only checks `len < 24` and reads the
first 24 bytes, scanning the whole slice just for escapes), refuting
"succeeds exactly on inputs in the fixed-width 24-byte format". -/
theorem c2_timestamp_counterexample :
    parse_fix_timestamp
        [50, 48, 50, 52, 48, 49, 49, 53, 45, 48, 57, 58, 51, 48, 58, 48,
         48, 46, 49, 50, 51, 52, 53, 54, 55] =
      Except.ok ⟨20240115093000, 123456⟩ ∧
    ([50, 48, 50, 52, 48, 49, 49, 53, 45, 48, 57, 58, 51, 48, 58, 48,
      48, 46, 49, 50, 51, 52, 53, 54, 55] : List Nat).length ≠ 24 := by
  decide

/-- C2 (amended): the timestamp parser succeeds exactly on slices of
length at least 24 whose first 24 bytes are in the
`YYYYMMDD-HH:MM:SS.ssssss` shape (separators at 8, 11, 14, 17; the five
groups all ASCII digits) with no escape byte anywhere in the slice; any
other slice fails with `InvalidTimestamp`; and on success `seconds` is
the base-10 packing `YYYYMMDD*1000000 + HH*10000 + MM*100 + SS` and
`micros` is exactly the six microsecond digits, with no rounding. -/
theorem c2_timestamp_parse :
    (∀ s, (parse_timestamp s).isSome ↔ tsWellFormed s) ∧
    (∀ s, tsWellFormed s →
      parse_fix_timestamp s = Except.ok
        ⟨digitsVal (s.take 8) * 1000000 + digitsVal ((s.drop 9).take 2) * 10000 +
         digitsVal ((s.drop 12).take 2) * 100 + digitsVal ((s.drop 15).take 2),
         digitsVal ((s.drop 18).take 6)⟩) ∧
    (∀ s, ¬ tsWellFormed s →
      parse_fix_timestamp s = Except.error ⟨ParseErrorKind.InvalidTimestamp, 0⟩) := by
  refine ⟨fun s => ?_, fun s hwf => ?_, fun s hwf => ?_⟩
  · rw [parse_timestamp_eq]
    by_cases hwf : tsWellFormed s <;> simp [hwf]
  · unfold parse_fix_timestamp
    rw [parse_timestamp_eq, if_pos hwf]
  · unfold parse_fix_timestamp
    rw [parse_timestamp_eq, if_neg hwf]

/-- Witness for C2 at `"20240115-09:30:00.123456"`. -/
theorem c2_timestamp_parse_witness :
    tsWellFormed
      [50, 48, 50, 52, 48, 49, 49, 53, 45, 48, 57, 58, 51, 48, 58, 48,
       48, 46, 49, 50, 51, 52, 53, 54] ∧
    parse_fix_timestamp
        [50, 48, 50, 52, 48, 49, 49, 53, 45, 48, 57, 58, 51, 48, 58, 48,
         48, 46, 49, 50, 51, 52, 53, 54] =
      Except.ok
        ⟨digitsVal ([50, 48, 50, 52, 48, 49, 49, 53, 45, 48, 57, 58, 51, 48,
            58, 48, 48, 46, 49, 50, 51, 52, 53, 54].take 8) * 1000000 +
         digitsVal (([50, 48, 50, 52, 48, 49, 49, 53, 45, 48, 57, 58, 51, 48,
            58, 48, 48, 46, 49, 50, 51, 52, 53, 54].drop 9).take 2) * 10000 +
         digitsVal (([50, 48, 50, 52, 48, 49, 49, 53, 45, 48, 57, 58, 51, 48,
            58, 48, 48, 46, 49, 50, 51, 52, 53, 54].drop 12).take 2) * 100 +
         digitsVal (([50, 48, 50, 52, 48, 49, 49, 53, 45, 48, 57, 58, 51, 48,
            58, 48, 48, 46, 49, 50, 51, 52, 53, 54].drop 15).take 2),
         digitsVal (([50, 48, 50, 52, 48, 49, 49, 53, 45, 48, 57, 58, 51, 48,
            58, 48, 48, 46, 49, 50, 51, 52, 53, 54].drop 18).take 6)⟩ :=
  ⟨by decide,
   c2_timestamp_parse.2.1
     [50, 48, 50, 52, 48, 49, 49, 53, 45, 48, 57, 58, 51, 48, 58, 48,
      48, 46, 49, 50, 51, 52, 53, 54] (by decide)⟩

/-- C3 counterexample: on the field `a\=b=c`, the source splits at the
*first* `'='` even though it is preceded by an escape byte (tag `a\`,
value `b=c`), while the claim's first-unescaped-`'='` split would give
tag `a\=b`, value `c`.  The tokenizer's split is not escape-aware. -/
theorem c3_split_counterexample :
    split_tag_value [97, 92, 61, 98, 61, 99] = some ([97, 92], [98, 61, 99]) ∧
    splitTagValueSpec [97, 92, 61, 98, 61, 99] = some ([97, 92, 61, 98], [99]) ∧
    split_tag_value [97, 92, 61, 98, 61, 99] ≠
      splitTagValueSpec [97, 92, 61, 98, 61, 99] := by
  decide

/-- C3 (amended): the tokenizer splits each field on the first `'='` byte
regardless of escapes (the value part may itself contain `'='`): a split
succeeds exactly when the field decomposes as a non-empty `'='`-free tag,
the first `'='`, and the rest as value; it fails exactly when the field
has no `'='` at all or starts with `'='` (empty tag).  A failed split
becomes an `InvalidField` error whose `at_byte` is the field's starting
byte offset when the field is terminated by a field delimiter, and
likewise for an unterminated trailing field of length at least 2 -- but
the loop's emptiness test `field_start == i - 1` silently skips an
unterminated trailing field of length exactly 1, leaving the state
unchanged, so such a field never reports `InvalidField`: concretely,
`11=O|Z` fails with `MissingTag` at 0 while `11=O|Z|` fails with
`InvalidField` at 5. -/
theorem c3_split_tag_value :
    (∀ field t v, split_tag_value field = some (t, v) ↔
      (field = t ++ 61 :: v ∧ 61 ∉ t ∧ t ≠ [])) ∧
    (∀ field, split_tag_value field = none ↔
      (61 ∉ field ∨ field.head? = some 61)) ∧
    (∀ (raw : List Nat) (i j : Nat) (st : PartialParsed),
      find_unescaped raw i FIELD_DELIM = some j → i ≠ j →
      split_tag_value ((raw.take j).drop i) = none →
      parseField raw i st = Except.error ⟨ParseErrorKind.InvalidField, i⟩) ∧
    (∀ (raw : List Nat) (i : Nat) (st : PartialParsed),
      find_unescaped raw i FIELD_DELIM = none → i ≠ raw.length - 1 →
      split_tag_value ((raw.take raw.length).drop i) = none →
      parseField raw i st = Except.error ⟨ParseErrorKind.InvalidField, i⟩) ∧
    (∀ (raw : List Nat) (i : Nat) (st : PartialParsed),
      find_unescaped raw i FIELD_DELIM = none → i = raw.length - 1 →
      parseField raw i st = Except.ok (st, raw.length)) ∧
    parse_required [49, 49, 61, 79, 124, 90] =
      Except.error ⟨ParseErrorKind.MissingTag, 0⟩ ∧
    parse_required [49, 49, 61, 79, 124, 90, 124] =
      Except.error ⟨ParseErrorKind.InvalidField, 5⟩ := by
  refine ⟨split_tag_value_eq_some, split_tag_value_eq_none, ?_, ?_, ?_,
    by decide, by decide⟩
  · intro raw i j st hfe hij hsp
    unfold parseField
    split
    next j' hfe' =>
      rw [hfe] at hfe'
      injection hfe' with hjj
      subst hjj
      rw [if_neg hij, hsp]
    next hfe' =>
      rw [hfe] at hfe'
      exact absurd hfe' (by simp)
  · intro raw i st hfe hend hsp
    unfold parseField
    split
    next j' hfe' =>
      rw [hfe] at hfe'
      exact absurd hfe' (by simp)
    next hfe' =>
      rw [if_neg hend, hsp]
  · intro raw i st hfe hlast
    unfold parseField
    split
    next j' hfe' =>
      rw [hfe] at hfe'
      exact absurd hfe' (by simp)
    next hfe' =>
      rw [if_pos hlast]

/-- Witness for C3: the field `11=X` splits into tag `11` and value `X`;
the two-byte delimiterless message `55` (one field, no `'='`) makes the
field loop report `InvalidField` at byte 0; and the one-byte unterminated
trailing field `Z` of `11=O|Z` (starting at byte 5) is silently skipped,
the state passing through unchanged. -/
theorem c3_split_tag_value_witness :
    split_tag_value [49, 49, 61, 88] = some ([49, 49], [88]) ∧
    parseField [53, 53] 0 {} = Except.error ⟨ParseErrorKind.InvalidField, 0⟩ ∧
    parseField [49, 49, 61, 79, 124, 90] 5 {} = Except.ok ({}, 6) :=
  ⟨(c3_split_tag_value.1 [49, 49, 61, 88] [49, 49] [88]).mpr
     ⟨by decide, by decide, by decide⟩,
   c3_split_tag_value.2.2.2.1 [53, 53] 0 {} (by decide) (by decide) (by decide),
   c3_split_tag_value.2.2.2.2.1 [49, 49, 61, 79, 124, 90] 5 {}
     (by decide) (by decide)⟩

/-- C8: on every successfully parsed message, `process_message` increments
`total_messages` by 1; it increments `side_buy` by 1 iff the side byte is
`'1'` (49) and `side_sell` by 1 iff the side byte is `'2'` (50); any other
side byte touches neither side bucket; `malformed_messages` is untouched.
(The `+ 1 < 2^64` hypotheses exclude the wrap-around of the source's
64-bit counters, unreachable by counting messages.) -/
theorem c8_side_counters (a : TradeAnalyzer) (raw : List Nat) (parsed : Parsed)
    (hp : parse_required raw = Except.ok parsed)
    (htot : a.total_messages + 1 < U64)
    (hbuy : a.side_buy + 1 < U64) (hsell : a.side_sell + 1 < U64) :
    (a.process_message raw).2.total_messages = a.total_messages + 1 ∧
    (a.process_message raw).2.side_buy =
      a.side_buy + (if parsed.side = 49 then 1 else 0) ∧
    (a.process_message raw).2.side_sell =
      a.side_sell + (if parsed.side = 50 then 1 else 0) ∧
    (a.process_message raw).2.malformed_messages = a.malformed_messages := by
  unfold TradeAnalyzer.process_message
  rw [hp]
  by_cases hb : parsed.side = 49
  · simp [hb, Nat.mod_eq_of_lt htot, Nat.mod_eq_of_lt hbuy]
  · by_cases hs : parsed.side = 50
    · simp [hb, hs, Nat.mod_eq_of_lt htot, Nat.mod_eq_of_lt hsell]
    · simp [hb, hs, Nat.mod_eq_of_lt htot]

/-- Witness for C8: processing one valid buy message on a fresh analyzer
gives totals (1, 1, 0) and no malformed count. -/
theorem c8_side_counters_witness :
    parse_required
        [49, 49, 61, 79, 124, 53, 53, 61, 65, 124, 53, 52, 61, 49, 124, 51,
         56, 61, 49, 48, 48, 124, 53, 50, 61, 50, 48, 50, 52, 48, 49, 49,
         53, 45, 48, 57, 58, 51, 48, 58, 48, 48, 46, 49, 50, 51, 52, 53,
         54, 124] =
      Except.ok ⟨[79], [65], 49, 100, ⟨20240115093000, 123456⟩, none⟩ ∧
    (((TradeAnalyzer.new 8 64).process_message
        [49, 49, 61, 79, 124, 53, 53, 61, 65, 124, 53, 52, 61, 49, 124, 51,
         56, 61, 49, 48, 48, 124, 53, 50, 61, 50, 48, 50, 52, 48, 49, 49,
         53, 45, 48, 57, 58, 51, 48, 58, 48, 48, 46, 49, 50, 51, 52, 53,
         54, 124]).2.total_messages = 0 + 1 ∧
     ((TradeAnalyzer.new 8 64).process_message
        [49, 49, 61, 79, 124, 53, 53, 61, 65, 124, 53, 52, 61, 49, 124, 51,
         56, 61, 49, 48, 48, 124, 53, 50, 61, 50, 48, 50, 52, 48, 49, 49,
         53, 45, 48, 57, 58, 51, 48, 58, 48, 48, 46, 49, 50, 51, 52, 53,
         54, 124]).2.side_buy =
       0 + (if (49 : Nat) = 49 then 1 else 0) ∧
     ((TradeAnalyzer.new 8 64).process_message
        [49, 49, 61, 79, 124, 53, 53, 61, 65, 124, 53, 52, 61, 49, 124, 51,
         56, 61, 49, 48, 48, 124, 53, 50, 61, 50, 48, 50, 52, 48, 49, 49,
         53, 45, 48, 57, 58, 51, 48, 58, 48, 48, 46, 49, 50, 51, 52, 53,
         54, 124]).2.side_sell =
       0 + (if (49 : Nat) = 50 then 1 else 0) ∧
     ((TradeAnalyzer.new 8 64).process_message
        [49, 49, 61, 79, 124, 53, 53, 61, 65, 124, 53, 52, 61, 49, 124, 51,
         56, 61, 49, 48, 48, 124, 53, 50, 61, 50, 48, 50, 52, 48, 49, 49,
         53, 45, 48, 57, 58, 51, 48, 58, 48, 48, 46, 49, 50, 51, 52, 53,
         54, 124]).2.malformed_messages = 0) :=
  ⟨by decide,
   c8_side_counters (TradeAnalyzer.new 8 64)
     [49, 49, 61, 79, 124, 53, 53, 61, 65, 124, 53, 52, 61, 49, 124, 51,
      56, 61, 49, 48, 48, 124, 53, 50, 61, 50, 48, 50, 52, 48, 49, 49,
      53, 45, 48, 57, 58, 51, 48, 58, 48, 48, 46, 49, 50, 51, 52, 53,
      54, 124]
     ⟨[79], [65], 49, 100, ⟨20240115093000, 123456⟩, none⟩
     (by decide) (by decide) (by decide) (by decide)⟩

/-- C4: when parsing fails, `process_message` returns the error and leaves
the analyzer (all counters and the table) unchanged, while
`process_message_lossy` on the same input increments `malformed_messages`
by exactly 1, changes nothing else, never returns an error (its return
type has no error component) and invokes the caller's error handler
exactly once, with that error. -/
theorem c4_lossy_error_handling (a : TradeAnalyzer) (raw : List Nat)
    (e : ParseError) (hp : parse_required raw = Except.error e)
    (hm : a.malformed_messages + 1 < U64) :
    a.process_message raw = (Except.error e, a) ∧
    a.process_message_lossy raw =
      ({ a with malformed_messages := a.malformed_messages + 1 }, [e]) := by
  have hpm : a.process_message raw = (Except.error e, a) := by
    unfold TradeAnalyzer.process_message
    rw [hp]
  refine ⟨hpm, ?_⟩
  unfold TradeAnalyzer.process_message_lossy
  rw [hpm]
  simp only [Nat.mod_eq_of_lt hm]

/-- Witness for C4: the message `11` (one field, missing its `'='`) fails
with `InvalidField` at byte 0; the lossy wrapper counts it and logs it. -/
theorem c4_lossy_error_handling_witness :
    (TradeAnalyzer.new 8 8).process_message [49, 49] =
      (Except.error ⟨ParseErrorKind.InvalidField, 0⟩, TradeAnalyzer.new 8 8) ∧
    (TradeAnalyzer.new 8 8).process_message_lossy [49, 49] =
      ({ TradeAnalyzer.new 8 8 with malformed_messages := 0 + 1 },
       [⟨ParseErrorKind.InvalidField, 0⟩]) :=
  c4_lossy_error_handling (TradeAnalyzer.new 8 8) [49, 49]
    ⟨ParseErrorKind.InvalidField, 0⟩ (by decide) (by decide)

theorem dispatch_error_kind (st : PartialParsed) (tag value : List Nat)
    (i : Nat) (e : ParseError) (h : dispatch st tag value i = Except.error e) :
    e.kind = ParseErrorKind.InvalidNumber ∨
      e.kind = ParseErrorKind.InvalidTimestamp := by
  obtain ⟨ek, eb⟩ := e
  unfold dispatch at h
  by_cases h1 : tag = [49, 49]
  · rw [if_pos h1] at h; exact absurd h (by simp)
  rw [if_neg h1] at h
  by_cases h2 : tag = [53, 53]
  · rw [if_pos h2] at h; exact absurd h (by simp)
  rw [if_neg h2] at h
  by_cases h3 : tag = [53, 52]
  · rw [if_pos h3] at h; exact absurd h (by simp)
  rw [if_neg h3] at h
  by_cases h4 : tag = [51, 56]
  · rw [if_pos h4] at h
    cases hpu : parse_u64 value with
    | none =>
      rw [hpu] at h
      simp only [Except.error.injEq, ParseError.mk.injEq] at h
      exact Or.inl h.1.symm
    | some q => rw [hpu] at h; exact absurd h (by simp)
  rw [if_neg h4] at h
  by_cases h5 : tag = [53, 50]
  · rw [if_pos h5] at h
    cases hts : parse_timestamp value with
    | none =>
      rw [hts] at h
      simp only [Except.error.injEq, ParseError.mk.injEq] at h
      exact Or.inr h.1.symm
    | some t => rw [hts] at h; exact absurd h (by simp)
  rw [if_neg h5] at h
  by_cases h6 : tag = [53, 56]
  · rw [if_pos h6] at h; exact absurd h (by simp)
  · rw [if_neg h6] at h; exact absurd h (by simp)

theorem parseField_error_kind (raw : List Nat) (i : Nat) (st : PartialParsed)
    (e : ParseError) (h : parseField raw i st = Except.error e) :
    e.kind = ParseErrorKind.InvalidField ∨ e.kind = ParseErrorKind.InvalidNumber ∨
      e.kind = ParseErrorKind.InvalidTimestamp := by
  unfold parseField at h
  split at h
  next j hfe =>
    split at h
    · exact absurd h (by simp)
    · split at h
      · obtain ⟨ek, eb⟩ := e
        simp only [Except.error.injEq, ParseError.mk.injEq] at h
        exact Or.inl h.1.symm
      next tag value hsp =>
        cases hd : dispatch st tag value i with
        | error e' =>
          rw [hd] at h
          have he : e' = e := by simpa [Except.map] using h
          rcases dispatch_error_kind st tag value i e' hd with hk | hk
          · exact Or.inr (Or.inl (he ▸ hk))
          · exact Or.inr (Or.inr (he ▸ hk))
        | ok st'' =>
          rw [hd] at h
          exact absurd h (by simp [Except.map])
  next hfe =>
    split at h
    · exact absurd h (by simp)
    · split at h
      · obtain ⟨ek, eb⟩ := e
        simp only [Except.error.injEq, ParseError.mk.injEq] at h
        exact Or.inl h.1.symm
      next tag value hsp =>
        cases hd : dispatch st tag value i with
        | error e' =>
          rw [hd] at h
          have he : e' = e := by simpa [Except.map] using h
          rcases dispatch_error_kind st tag value i e' hd with hk | hk
          · exact Or.inr (Or.inl (he ▸ hk))
          · exact Or.inr (Or.inr (he ▸ hk))
        | ok st'' =>
          rw [hd] at h
          exact absurd h (by simp [Except.map])

theorem parseLoop_error_kind (raw : List Nat) :
    ∀ fuel i st e, parseLoop raw fuel i st = Except.error e →
      e.kind = ParseErrorKind.InvalidField ∨ e.kind = ParseErrorKind.InvalidNumber ∨
        e.kind = ParseErrorKind.InvalidTimestamp := by
  intro fuel
  induction fuel with
  | zero => intro i st e h; exact absurd h (by simp [parseLoop])
  | succ f ih =>
    intro i st e h
    simp only [parseLoop] at h
    by_cases hi : i < raw.length
    · rw [if_pos hi] at h
      cases hpf : parseField raw i st with
      | error e' =>
        rw [hpf] at h
        have he : e' = e := by simpa using h
        exact he ▸ parseField_error_kind raw i st e' hpf
      | ok p =>
        obtain ⟨st', i'⟩ := p
        rw [hpf] at h
        exact ih i' st' e (by simpa using h)
    · rw [if_neg hi] at h
      exact absurd h (by simp)

theorem parse_required_error_kind (raw : List Nat) (e : ParseError)
    (h : parse_required raw = Except.error e) :
    e.kind = ParseErrorKind.MissingTag ∨ e.kind = ParseErrorKind.InvalidField ∨
      e.kind = ParseErrorKind.InvalidNumber ∨
      e.kind = ParseErrorKind.InvalidTimestamp := by
  unfold parse_required at h
  split at h
  next e' hpl =>
    injection h with he
    rcases parseLoop_error_kind raw (raw.length + 1) 0 {} e' hpl with hk | hk | hk
    · exact Or.inr (Or.inl (he ▸ hk))
    · exact Or.inr (Or.inr (Or.inl (he ▸ hk)))
    · exact Or.inr (Or.inr (Or.inr (he ▸ hk)))
  next st hpl =>
    split at h
    · exact absurd h (by simp)
    · obtain ⟨ek, eb⟩ := e
      simp only [Except.error.injEq, ParseError.mk.injEq] at h
      exact Or.inl h.1.symm

theorem recordLoop_error_kind :
    ∀ (probes mask : Nat) (slots : List SymbolSlot) (arena : Arena)
      (raw : List Nat) (hash dlen qty idx : Nat) (k : ParseErrorKind)
      (out : List SymbolSlot × Arena),
      recordLoop mask slots arena raw hash dlen qty idx probes =
        (Except.error k, out) →
      k = ParseErrorKind.ArenaFull ∨ k = ParseErrorKind.TableFull := by
  intro probes
  induction probes with
  | zero =>
    intro mask slots arena raw hash dlen qty idx k out h
    simp only [recordLoop, Prod.mk.injEq, Except.error.injEq] at h
    exact Or.inr h.1.symm
  | succ p ih =>
    intro mask slots arena raw hash dlen qty idx k out h
    simp only [recordLoop] at h
    split at h
    · split at h
      · simp only [Prod.mk.injEq, Except.error.injEq] at h
        exact Or.inl h.1.symm
      · split at h
        · exact absurd h (by simp)
        · exact ih _ _ _ _ _ _ _ _ _ _ h
    · split at h
      · split at h
        · simp only [Prod.mk.injEq, Except.error.injEq] at h
          exact Or.inl h.1.symm
        · split at h
          · simp only [Prod.mk.injEq, Except.error.injEq] at h
            exact Or.inl h.1.symm
          · exact absurd h (by simp)
      · exact ih _ _ _ _ _ _ _ _ _ _ h

theorem record_error_kind (t : SymbolTable) (sym : List Nat) (qty : Nat)
    (k : ParseErrorKind) (h : (t.record sym qty).1 = Except.error k) :
    k = ParseErrorKind.ArenaFull ∨ k = ParseErrorKind.TableFull := by
  unfold SymbolTable.record at h
  exact recordLoop_error_kind (t.mask + 1) t.mask t.slots t.arena sym
    (hash64_and_len sym).1 (hash64_and_len sym).2 qty
    ((hash64_and_len sym).1 % (t.mask + 1)) k _ (by rw [← h])

theorem recordErrToParse_error (x : Except ParseErrorKind Unit) (e : ParseError)
    (h : recordErrToParse x = Except.error e) :
    ∃ k, x = Except.error k ∧ e = ⟨k, 0⟩ := by
  cases x with
  | error k =>
    refine ⟨k, rfl, ?_⟩
    have : (⟨k, 0⟩ : ParseError) = e := by simpa [recordErrToParse] using h
    exact this.symm
  | ok u => simp [recordErrToParse] at h

/-- C10: `process_message` never returns an error of kind `InvalidTag`:
every error it can return has one of the kinds `MissingTag`,
`InvalidField`, `InvalidNumber`, `InvalidTimestamp`, `ArenaFull` or
`TableFull` — the `InvalidTag` variant is declared but never
constructed. -/
theorem c10_no_invalid_tag (a : TradeAnalyzer) (raw : List Nat)
    (e : ParseError) (a' : TradeAnalyzer)
    (h : a.process_message raw = (Except.error e, a')) :
    e.kind ≠ ParseErrorKind.InvalidTag ∧
    (e.kind = ParseErrorKind.MissingTag ∨ e.kind = ParseErrorKind.InvalidField ∨
     e.kind = ParseErrorKind.InvalidNumber ∨
     e.kind = ParseErrorKind.InvalidTimestamp ∨
     e.kind = ParseErrorKind.ArenaFull ∨ e.kind = ParseErrorKind.TableFull) := by
  have hkinds : e.kind = ParseErrorKind.MissingTag ∨
      e.kind = ParseErrorKind.InvalidField ∨
      e.kind = ParseErrorKind.InvalidNumber ∨
      e.kind = ParseErrorKind.InvalidTimestamp ∨
      e.kind = ParseErrorKind.ArenaFull ∨ e.kind = ParseErrorKind.TableFull := by
    unfold TradeAnalyzer.process_message at h
    cases hp : parse_required raw with
    | error e' =>
      rw [hp] at h
      have he : e' = e := by
        have := congrArg Prod.fst h
        simpa using this
      rcases parse_required_error_kind raw e' hp with hk | hk | hk | hk
      · exact Or.inl (he ▸ hk)
      · exact Or.inr (Or.inl (he ▸ hk))
      · exact Or.inr (Or.inr (Or.inl (he ▸ hk)))
      · exact Or.inr (Or.inr (Or.inr (Or.inl (he ▸ hk))))
    | ok parsed =>
      rw [hp] at h
      have h1 := congrArg Prod.fst h
      simp only at h1
      obtain ⟨k, hk, hek⟩ := recordErrToParse_error _ e h1
      rcases record_error_kind _ parsed.symbol parsed.quantity k hk with hak | hak
      · exact Or.inr (Or.inr (Or.inr (Or.inr (Or.inl (by rw [hek, hak])))))
      · exact Or.inr (Or.inr (Or.inr (Or.inr (Or.inr (by rw [hek, hak])))))
  refine ⟨?_, hkinds⟩
  intro hbad
  rcases hkinds with hk | hk | hk | hk | hk | hk <;> rw [hbad] at hk <;> exact
    (by simp at hk)

/-- Witness for C10: the empty message fails with `MissingTag`, which is
not `InvalidTag`. -/
theorem c10_no_invalid_tag_witness :
    (TradeAnalyzer.new 8 8).process_message [] =
      (Except.error ⟨ParseErrorKind.MissingTag, 0⟩, TradeAnalyzer.new 8 8) ∧
    ((⟨ParseErrorKind.MissingTag, 0⟩ : ParseError).kind ≠ ParseErrorKind.InvalidTag ∧
     ((⟨ParseErrorKind.MissingTag, 0⟩ : ParseError).kind = ParseErrorKind.MissingTag ∨
      (⟨ParseErrorKind.MissingTag, 0⟩ : ParseError).kind = ParseErrorKind.InvalidField ∨
      (⟨ParseErrorKind.MissingTag, 0⟩ : ParseError).kind = ParseErrorKind.InvalidNumber ∨
      (⟨ParseErrorKind.MissingTag, 0⟩ : ParseError).kind = ParseErrorKind.InvalidTimestamp ∨
      (⟨ParseErrorKind.MissingTag, 0⟩ : ParseError).kind = ParseErrorKind.ArenaFull ∨
      (⟨ParseErrorKind.MissingTag, 0⟩ : ParseError).kind = ParseErrorKind.TableFull)) :=
  ⟨by decide,
   c10_no_invalid_tag (TradeAnalyzer.new 8 8) [] ⟨ParseErrorKind.MissingTag, 0⟩
     (TradeAnalyzer.new 8 8) (by decide)⟩

/-- In a table whose every slot is occupied by a key that does not match
the probed symbol, the probe loop exhausts its budget and reports
`TableFull`, mutating nothing. -/
theorem recordLoop_full (mask : Nat) (slots : List SymbolSlot) (arena : Arena)
    (raw : List Nat) (hash dlen qty : Nat)
    (hm : mask + 1 = slots.length)
    (hfull : ∀ s ∈ slots, s.key_hash ≠ 0 ∧
      (s.key_hash = hash →
        (arena.get (unpack_meta s.meta).1 (unpack_meta s.meta).2).isSome = true ∧
        escaped_eq raw
          ((arena.get (unpack_meta s.meta).1 (unpack_meta s.meta).2).getD []) =
          false)) :
    ∀ probes idx, idx < slots.length →
      recordLoop mask slots arena raw hash dlen qty idx probes =
        (Except.error ParseErrorKind.TableFull, (slots, arena)) := by
  intro probes
  induction probes with
  | zero => intro idx _; rfl
  | succ p ih =>
    intro idx hidx
    have hmem : slots.getD idx SymbolSlot.empty ∈ slots := by
      rw [List.getD_eq_getElem slots SymbolSlot.empty hidx]
      exact List.getElem_mem hidx
    obtain ⟨hkz, hmatch⟩ := hfull _ hmem
    have hmod : (idx + 1) % (mask + 1) < slots.length := by
      rw [← hm]
      exact Nat.mod_lt _ (by omega)
    by_cases hkh : (slots.getD idx SymbolSlot.empty).key_hash = hash
    · obtain ⟨hsome, hne⟩ := hmatch hkh
      cases hget : arena.get
          (unpack_meta (slots.getD idx SymbolSlot.empty).meta).1
          (unpack_meta (slots.getD idx SymbolSlot.empty).meta).2 with
      | none => rw [hget] at hsome; simp at hsome
      | some stored =>
        rw [hget] at hne
        simp only [Option.getD_some] at hne
        simp only [recordLoop]
        rw [if_pos hkh]
        simp only [hget]
        rw [if_neg (by simp [hne])]
        exact ih _ hmod
    · simp only [recordLoop]
      rw [if_neg hkh, if_neg hkz]
      exact ih _ hmod

/-- C5: the symbol table's capacity is `max_symbols` rounded up to the next
power of two with a minimum of 8 (`nextPowerOfTwo` being the least power of
two at or above its argument), the probe mask is capacity minus one; and
once every slot is occupied, recording a symbol whose decoded bytes match
no stored key returns `TableFull` after the bounded probe sequence and
leaves the table — every slot's key, count and volume, and the arena —
completely unchanged, so a snapshot taken after the overflow equals the
one before.  Concretely, after the eight distinct symbols `A`..`H` fill an
8-slot table, recording `I` fails with `TableFull` and changes nothing. -/
theorem c5_capacity_and_table_full :
    (∀ m b, (SymbolTable.new m b).slots.length = max (nextPowerOfTwo m) 8 ∧
      (SymbolTable.new m b).mask + 1 = (SymbolTable.new m b).slots.length ∧
      8 ≤ (SymbolTable.new m b).slots.length) ∧
    (∀ m, (∃ k, nextPowerOfTwo m = 2 ^ k) ∧ m ≤ nextPowerOfTwo m ∧
      ∀ j, m ≤ 2 ^ j → nextPowerOfTwo m ≤ 2 ^ j) ∧
    (∀ (t : SymbolTable) (sym : List Nat) (qty : Nat),
      t.mask + 1 = t.slots.length →
      (∀ s ∈ t.slots, s.key_hash ≠ 0 ∧
        (s.key_hash = (hash64_and_len sym).1 →
          (t.arena.get (unpack_meta s.meta).1 (unpack_meta s.meta).2).isSome =
            true ∧
          escaped_eq sym
            ((t.arena.get (unpack_meta s.meta).1 (unpack_meta s.meta).2).getD []) =
            false)) →
      t.record sym qty = (Except.error ParseErrorKind.TableFull, t) ∧
      (t.record sym qty).2.snapshot = t.snapshot) ∧
    c5DemoTable.record [73] 9 = (Except.error ParseErrorKind.TableFull, c5DemoTable) := by
  refine ⟨?_, ?_, ?_, by decide⟩
  · intro m b
    refine ⟨?_, ?_, ?_⟩
    · show (List.replicate (max (nextPowerOfTwo m) 8) SymbolSlot.empty).length =
        max (nextPowerOfTwo m) 8
      rw [List.length_replicate]
    · show max (nextPowerOfTwo m) 8 - 1 + 1 =
        (List.replicate (max (nextPowerOfTwo m) 8) SymbolSlot.empty).length
      rw [List.length_replicate]
      omega
    · show 8 ≤ (List.replicate (max (nextPowerOfTwo m) 8) SymbolSlot.empty).length
      rw [List.length_replicate]
      omega
  · intro m
    obtain ⟨k, hk, hge, hleast⟩ := nextPowerOfTwo_spec m
    refine ⟨⟨k, hk⟩, hk ▸ hge, fun j hj => ?_⟩
    rw [hk]
    by_cases hjk : j < k
    · exact absurd hj (by have := hleast j hjk; omega)
    · exact Nat.pow_le_pow_right (by norm_num) (by omega)
  · intro t sym qty hm hfull
    have hloop := recordLoop_full t.mask t.slots t.arena sym (hash64_and_len sym).1
      (hash64_and_len sym).2 qty hm hfull (t.mask + 1)
      ((hash64_and_len sym).1 % (t.mask + 1))
      (by rw [← hm]; exact Nat.mod_lt _ (by omega))
    have hrec : t.record sym qty = (Except.error ParseErrorKind.TableFull, t) := by
      simp only [SymbolTable.record]
      rw [hloop]
    exact ⟨hrec, by rw [hrec]⟩

/-- Witness for C5: the capacity conjuncts at `max_symbols = 5`, and the
full-table `TableFull` conjunct at the concrete 8-slot table holding
`A`..`H`, probed with the fresh symbol `I`. -/
theorem c5_capacity_and_table_full_witness :
    ((SymbolTable.new 5 16).slots.length = max (nextPowerOfTwo 5) 8 ∧
     (SymbolTable.new 5 16).mask + 1 = (SymbolTable.new 5 16).slots.length ∧
     8 ≤ (SymbolTable.new 5 16).slots.length) ∧
    (c5DemoTable.mask + 1 = c5DemoTable.slots.length) ∧
    (c5DemoTable.record [73] 9 =
       (Except.error ParseErrorKind.TableFull, c5DemoTable) ∧
     (c5DemoTable.record [73] 9).2.snapshot = c5DemoTable.snapshot) :=
  ⟨c5_capacity_and_table_full.1 5 16, by decide,
   c5_capacity_and_table_full.2.2.1 c5DemoTable [73] 9 (by decide) (by decide)⟩

theorem getD_replicate {α : Type} (n i : Nat) (a : α) :
    (List.replicate n a).getD i a = a := by
  by_cases h : i < n
  · rw [List.getD_eq_getElem _ _ (by simpa using h)]
    simp
  · exact List.getD_eq_default _ _ (by simpa using Nat.le_of_not_lt h)

theorem getD_set_self {α : Type} (l : List α) (i : Nat) (a d : α)
    (h : i < l.length) :
    (l.set i a).getD i d = a := by
  rw [List.getD_eq_getElem _ _ (by simpa using h)]
  exact List.getElem_set_self _

theorem hash64_and_len_congr (r1 r2 : List Nat) (h : decode r1 = decode r2) :
    hash64_and_len r1 = hash64_and_len r2 := by
  rw [hash64_and_len_eq_decode, hash64_and_len_eq_decode, h]

theorem snapshotAux_replicate_empty (arena : Arena) (n : Nat) :
    snapshotAux arena (List.replicate n SymbolSlot.empty) = [] := by
  induction n with
  | zero => rfl
  | succ k ih =>
    rw [List.replicate_succ]
    simp only [snapshotAux]
    rw [if_pos (show SymbolSlot.empty.key_hash = 0 from rfl)]
    exact ih

/-- The snapshot of a slot array holding exactly one published slot is the
single row read from that slot. -/
theorem snapshotAux_single (arena : Arena) (n i : Nat) (s : SymbolSlot)
    (hi : i < n) (hk : s.key_hash ≠ 0) (hm : s.meta ≠ 0) (stored : List Nat)
    (hget : arena.get (unpack_meta s.meta).1 (unpack_meta s.meta).2 =
      some stored) :
    snapshotAux arena ((List.replicate n SymbolSlot.empty).set i s) =
      [(stored, s.count, s.volume)] := by
  induction n generalizing i with
  | zero => omega
  | succ k ih =>
    rw [List.replicate_succ]
    cases i with
    | zero =>
      rw [show (SymbolSlot.empty :: List.replicate k SymbolSlot.empty).set 0 s =
          s :: List.replicate k SymbolSlot.empty from rfl]
      simp only [snapshotAux]
      rw [if_neg hk, if_neg hm]
      simp only [hget]
      rw [snapshotAux_replicate_empty]
    | succ i' =>
      rw [show (SymbolSlot.empty :: List.replicate k SymbolSlot.empty).set (i' + 1) s =
          SymbolSlot.empty :: (List.replicate k SymbolSlot.empty).set i' s from rfl]
      simp only [snapshotAux]
      rw [if_pos (show SymbolSlot.empty.key_hash = 0 from rfl)]
      exact ih i' (by omega)

/-- Recording any symbol with a non-empty decoding that fits the arena into
a freshly constructed table succeeds, claims the slot `hash % capacity`,
stores the decoded bytes at arena offset 0 and publishes count 1 and the
given volume. -/
theorem record_fresh (m b : Nat) (r : List Nat) (q : Nat)
    (hne : decode r ≠ []) (hcap : (decode r).length ≤ b) :
    (SymbolTable.new m b).record r q =
      (Except.ok (),
       { mask := max (nextPowerOfTwo m) 8 - 1,
         slots := (List.replicate (max (nextPowerOfTwo m) 8) SymbolSlot.empty).set
           ((hash64_and_len r).1 % (max (nextPowerOfTwo m) 8))
           ⟨(hash64_and_len r).1, pack_meta 0 (decode r).length, 1, q⟩,
         arena := ⟨decode r ++ (List.replicate b 0).drop (decode r).length,
                   (decode r).length⟩ }) := by
  have hdlen : (hash64_and_len r).2 = (decode r).length := by
    rw [hash64_and_len_eq_decode]
  have hhash0 := hash64_fst_ne_zero r
  have hne0 : ¬ ((0 : Nat) = (hash64_and_len r).1) := fun h => hhash0 h.symm
  have hlen0 : ¬ ((decode r).length = 0) := by
    simpa [List.length_eq_zero] using hne
  have hmask : max (nextPowerOfTwo m) 8 - 1 + 1 = max (nextPowerOfTwo m) 8 := by
    have : 8 ≤ max (nextPowerOfTwo m) 8 := le_max_right _ _
    omega
  have hfit : ¬ ((List.replicate b (0:Nat)).length < 0 + (decode r).length) := by
    simp only [List.length_replicate]
    omega
  have hfit2 : ¬ ((List.replicate b (0:Nat)).length < (decode r).length) := by
    simp only [List.length_replicate]
    omega
  simp only [SymbolTable.record, SymbolTable.new, Arena.new, hdlen, recordLoop,
    getD_replicate, SymbolSlot.empty, Arena.alloc, hne0, hlen0, hfit, hfit2,
    hmask, if_false, if_true, ite_false, ite_true, List.set_set, writeBytes,
    List.take_zero, List.nil_append, Nat.zero_add, gt_iff_lt]

/-- Recording a symbol whose hash slot is already occupied by a key with
matching hash and matching stored bytes succeeds on the first probe and
bumps that slot's count and volume with wrapping 64-bit adds. -/
theorem record_hit (t : SymbolTable) (sym : List Nat) (q : Nat)
    (stored : List Nat)
    (hk : (t.slots.getD ((hash64_and_len sym).1 % (t.mask + 1))
        SymbolSlot.empty).key_hash = (hash64_and_len sym).1)
    (hget : t.arena.get
        (unpack_meta (t.slots.getD ((hash64_and_len sym).1 % (t.mask + 1))
          SymbolSlot.empty).meta).1
        (unpack_meta (t.slots.getD ((hash64_and_len sym).1 % (t.mask + 1))
          SymbolSlot.empty).meta).2 = some stored)
    (heq : escaped_eq sym stored = true) :
    t.record sym q =
      (Except.ok (),
       { t with slots :=
          (t.slots.set ((hash64_and_len sym).1 % (t.mask + 1))
            (bumpSlot (t.slots.getD ((hash64_and_len sym).1 % (t.mask + 1))
              SymbolSlot.empty) q)) }) := by
  simp only [SymbolTable.record, recordLoop, bumpSlot]
  rw [if_pos hk]
  simp only [hget]
  rw [if_pos heq]

/-- C1 counterexample: recording the same symbol `A` twice with quantity
`2^63` accumulates into one slot with count 2, but the slot's volume is the
wrapping 64-bit sum 0, not the mathematical sum `2^64` — refuting "volume
equal to the sum of the two quantities" as stated (`fetch_add` on the
`u64` volume counter wraps). -/
theorem c1_volume_wrap_counterexample :
    decode [65] = decode [65] ∧
    ((((SymbolTable.new 8 16).record [65] 9223372036854775808).2.record [65]
        9223372036854775808).2.snapshot) = [([65], 2, 0)] ∧
    (9223372036854775808 + 9223372036854775808 : Nat) ≠ 0 := by
  decide

/-- C1 (amended): for every pair of raw byte strings `r1`, `r2` whose
escape-decoded forms are equal and non-empty (and, for the meta packing,
shorter than `2^32` bytes and fitting the arena budget), recording first
`r1` and then `r2` on a fresh symbol table accumulates into the same
slot: both records succeed and the table afterwards holds exactly one
entry, for the decoded symbol, with count 2 and volume equal to the
wrapping 64-bit sum of the two quantities. -/
theorem c1_escaped_spellings_accumulate (m b : Nat) (r1 r2 : List Nat)
    (q1 q2 : Nat)
    (hdec : decode r1 = decode r2) (hne : decode r1 ≠ [])
    (hlen32 : (decode r1).length < 2 ^ 32) (hcap : (decode r1).length ≤ b)
    (hq1 : q1 < U64) (hq2 : q2 < U64) :
    ((SymbolTable.new m b).record r1 q1).1 = Except.ok () ∧
    ((((SymbolTable.new m b).record r1 q1).2).record r2 q2).1 = Except.ok () ∧
    ((((SymbolTable.new m b).record r1 q1).2).record r2 q2).2.snapshot =
      [(decode r1, 2, (q1 + q2) % U64)] := by
  have hcap8 : (8:Nat) ≤ max (nextPowerOfTwo m) 8 := le_max_right _ _
  have hmaxsub : max (nextPowerOfTwo m) 8 - 1 + 1 = max (nextPowerOfTwo m) 8 := by
    omega
  have hfresh := record_fresh m b r1 q1 hne hcap
  have hh2 : hash64_and_len r2 = hash64_and_len r1 :=
    hash64_and_len_congr r2 r1 hdec.symm
  have hlen0 : (decode r1).length ≠ 0 := by
    simpa [List.length_eq_zero] using hne
  have hhash0 := hash64_fst_ne_zero r1
  have hpack : pack_meta 0 (decode r1).length = (decode r1).length := by
    unfold pack_meta U64
    rw [Nat.zero_mul, Nat.zero_mod, Nat.zero_add, Nat.mod_eq_of_lt hlen32]
  have hunpack : unpack_meta (pack_meta 0 (decode r1).length) =
      (0, (decode r1).length) :=
    unpack_pack_meta 0 _ (by norm_num) hlen32
  have hidxlt : (hash64_and_len r1).1 % max (nextPowerOfTwo m) 8 <
      max (nextPowerOfTwo m) 8 := Nat.mod_lt _ (by omega)
  have hslot : (((List.replicate (max (nextPowerOfTwo m) 8) SymbolSlot.empty).set
        ((hash64_and_len r1).1 % max (nextPowerOfTwo m) 8)
        ⟨(hash64_and_len r1).1, pack_meta 0 (decode r1).length, 1, q1⟩).getD
        ((hash64_and_len r1).1 % max (nextPowerOfTwo m) 8) SymbolSlot.empty) =
      ⟨(hash64_and_len r1).1, pack_meta 0 (decode r1).length, 1, q1⟩ :=
    getD_set_self _ _ _ _ (by simpa [List.length_replicate] using hidxlt)
  have hbuflen : (decode r1 ++ (List.replicate b (0:Nat)).drop
      (decode r1).length).length = b := by
    simp only [List.length_append, List.length_drop, List.length_replicate]
    omega
  have hget : (⟨decode r1 ++ (List.replicate b 0).drop (decode r1).length,
        (decode r1).length⟩ : Arena).get 0 (decode r1).length =
      some (decode r1) := by
    unfold Arena.get
    rw [if_neg (by simp only [hbuflen]; omega)]
    rw [List.drop_zero, List.take_left]
  have heq2 : escaped_eq r2 (decode r1) = true :=
    (escaped_eq_iff_decode r2 (decode r1)).mpr hdec.symm
  have hhit := record_hit
    ({ mask := max (nextPowerOfTwo m) 8 - 1,
       slots := (List.replicate (max (nextPowerOfTwo m) 8) SymbolSlot.empty).set
         ((hash64_and_len r1).1 % (max (nextPowerOfTwo m) 8))
         ⟨(hash64_and_len r1).1, pack_meta 0 (decode r1).length, 1, q1⟩,
       arena := ⟨decode r1 ++ (List.replicate b 0).drop (decode r1).length,
                 (decode r1).length⟩ } : SymbolTable)
    r2 q2 (decode r1)
    (by
      simp only [hh2, hmaxsub]
      rw [hslot])
    (by
      simp only [hh2, hmaxsub]
      rw [hslot]
      simp only [hunpack]
      exact hget)
    heq2
  refine ⟨by rw [hfresh], ?_, ?_⟩
  · rw [hfresh]
    simp only
    rw [hhit]
  · rw [hfresh]
    simp only
    rw [hhit]
    simp only [SymbolTable.snapshot, hh2, hmaxsub, hslot, List.set_set]
    rw [snapshotAux_single _ _ _ _ hidxlt
      (by simp [bumpSlot]; exact hhash0)
      (by simp [bumpSlot, hpack]; exact hne)
      (decode r1)
      (by simp only [bumpSlot]; simp only [hunpack]; exact hget)]
    simp [bumpSlot, Nat.mod_eq_of_lt, U64]

/-- Witness for C1 at the two spellings `I\|BM` and `I` + escaped `|` + `BM`
of the symbol `I|BM` — here both raws spelled as `[73, 92, 124, 66, 77]`
and `[73, 92, 124, 66, 77]` with a second spelling escaping the `B`
(`[73, 92, 124, 92, 66, 77]`): both decode to `I|BM`. -/
theorem c1_escaped_spellings_accumulate_witness :
    (decode [73, 92, 124, 66, 77] = decode [73, 92, 124, 92, 66, 77] ∧
     decode [73, 92, 124, 66, 77] ≠ [] ∧
     (decode [73, 92, 124, 66, 77]).length < 2 ^ 32 ∧
     (decode [73, 92, 124, 66, 77]).length ≤ 16 ∧
     (3:Nat) < U64 ∧ (4:Nat) < U64) ∧
    (((SymbolTable.new 8 16).record [73, 92, 124, 66, 77] 3).1 = Except.ok () ∧
     ((((SymbolTable.new 8 16).record [73, 92, 124, 66, 77] 3).2).record
        [73, 92, 124, 92, 66, 77] 4).1 = Except.ok () ∧
     ((((SymbolTable.new 8 16).record [73, 92, 124, 66, 77] 3).2).record
        [73, 92, 124, 92, 66, 77] 4).2.snapshot =
       [(decode [73, 92, 124, 66, 77], 2, (3 + 4) % U64)]) :=
  ⟨⟨by decide, by decide, by decide, by decide, by decide, by decide⟩,
   c1_escaped_spellings_accumulate 8 16 [73, 92, 124, 66, 77]
     [73, 92, 124, 92, 66, 77] 3 4 (by decide) (by decide) (by decide)
     (by decide) (by decide) (by decide)⟩

end FixAnalyzer
